import Mathlib

/-!
Verification of the priority-weighted route-planning engine of the WasteBins
repository (`bins/utils/dijkstra.py`, `bins/utils/priority_calculator.py`,
`bins/utils/ai/train_model.py`).

The Python code is shallowly embedded:
* vertices (node ids) are `ℕ`; edge weights and sensor values are `ℚ`
  (exact arithmetic stands in for Python floats; no claim here depends on
  rounding), except where the source uses trigonometry (`haversine_distance`),
  which is embedded over `ℝ`;
* `float('inf')` is `(⊤ : WithTop ℚ)`; a Python dict whose observable
  behaviour depends on key presence (the `dist` map) is embedded as a
  function into `Option`, `dict.get(k, d)` becoming `(f k).getD d`;
* the `heapq` priority queue is a list from which `popMin` removes the
  lexicographically least `(distance, vertex)` pair — exactly the element
  `heapq.heappop` yields;
* `while` loops are fuel-indexed recursions together with proofs that the
  chosen fuel suffices (`dijkstraFuel`, the length of the target list);
* fallible external calls (`model.predict`, sklearn's `train_test_split`)
  are parameters (`Except`-valued functions, a split function).
-/

namespace WasteBins

/-! ## Association-list / dictionary helpers -/

/-- First-match lookup in an association list keyed by `ℕ` (a Python dict read). -/
def alookup {α : Type} (l : List (ℕ × α)) (k : ℕ) : Option α :=
  (l.find? (fun p => p.1 == k)).map Prod.snd

/-- Pointwise update of a total function (a Python dict write, observed
through `.get`). -/
def upd {α : Type} (f : ℕ → α) (k : ℕ) (v : α) : ℕ → α :=
  fun x => if x = k then v else f x

/-- Python dict assignment on an association list: replace the value of an
existing key in place, otherwise append the new binding. -/
def dinsert {α : Type} (m : List (ℕ × α)) (k : ℕ) (v : α) : List (ℕ × α) :=
  if (m.find? (fun p => p.1 == k)).isSome then
    m.map (fun p => if p.1 == k then (k, v) else p)
  else m ++ [(k, v)]

/-! ## Graphs (`graph: {u: [(v, w), ...]}`) -/

/-- A graph, as in `dijkstra.py`: a dict from vertex to adjacency list. -/
abbrev Graph : Type := List (ℕ × List (ℕ × ℚ))

/-- The keys of the graph dict. -/
def keys (g : Graph) : List ℕ := g.map Prod.fst

/-- `graph.get(u, [])`. -/
def adjOf (g : Graph) (u : ℕ) : List (ℕ × ℚ) := (alookup g u).getD []

/-- All edge weights of the graph are non-negative (decidable, quantifying
over the finitely many list entries). -/
def NonnegG (g : Graph) : Prop := ∀ p ∈ g, ∀ e ∈ p.2, 0 ≤ e.2

/-- No vertex has two parallel edges to the same neighbour, so "the edge
weight from `u` to `v`" is well defined. -/
def NoParallel (g : Graph) : Prop := ∀ p ∈ g, (p.2.map Prod.fst).Nodup

/-- The weight of the edge `u → v` recorded in the graph, if any. -/
def edgeW (g : Graph) (u v : ℕ) : Option ℚ := alookup (adjOf g u) v

/-- A walk from `u` to `t` in `g` together with its total weight: the paths
whose minimum `dijkstra` is specified to compute. -/
inductive Walk (g : Graph) : ℕ → ℕ → ℚ → Prop
  | nil (u : ℕ) : Walk g u u 0
  | cons {u v t : ℕ} {w c : ℚ} :
      (v, w) ∈ adjOf g u → Walk g v t c → Walk g u t (w + c)

/-! ## The priority queue (`heapq` on `(distance, vertex)` pairs) -/

/-- Lexicographic order on `(distance, vertex)` pairs, the order in which
`heapq` yields them. -/
def pqLe (a b : ℚ × ℕ) : Prop := a.1 < b.1 ∨ (a.1 = b.1 ∧ a.2 ≤ b.2)

instance (a b : ℚ × ℕ) : Decidable (pqLe a b) := by
  unfold pqLe; infer_instance

/-- Remove the least `(distance, vertex)` pair — the element `heappop`
returns — keeping the remaining multiset of entries. -/
def popMin : List (ℚ × ℕ) → Option ((ℚ × ℕ) × List (ℚ × ℕ))
  | [] => none
  | x :: xs =>
    match popMin xs with
    | none => some (x, [])
    | some (m, rest) => if pqLe x m then some (x, xs) else some (m, x :: rest)

/-! ## Dijkstra (`dijkstra.py`, lines 4–28) -/

/-- The mutable state of the `while pq:` loop in `dijkstra`. -/
structure DijkstraState where
  dist : ℕ → Option (WithTop ℚ)
  prev : ℕ → Option ℕ
  pq : List (ℚ × ℕ)
  visited : List ℕ

/-- `dist.get(v, float('inf'))`. -/
def distOf (dist : ℕ → Option (WithTop ℚ)) (v : ℕ) : WithTop ℚ := (dist v).getD ⊤

/-- One relaxation `nd = d + w; if nd < dist.get(v, inf): ...` of the edge
`e` out of the just-settled vertex `u` popped with distance `d`. -/
def relaxOne (u : ℕ) (d : ℚ) (st : DijkstraState) (e : ℕ × ℚ) : DijkstraState :=
  let nd : ℚ := d + e.2
  if ((nd : ℚ) : WithTop ℚ) < distOf st.dist e.1 then
    { st with dist := upd st.dist e.1 (some ((nd : ℚ) : WithTop ℚ))
            , prev := upd st.prev e.1 (some u)
            , pq := st.pq ++ [(nd, e.1)] }
  else st

/-- Settle the unvisited vertex `u` popped with distance `d`: add it to
`visited` and relax all its outgoing edges. -/
def processVertex (g : Graph) (u : ℕ) (d : ℚ) (st : DijkstraState) : DijkstraState :=
  (adjOf g u).foldl (relaxOne u d) { st with visited := st.visited ++ [u] }

/-- One iteration of the `while pq:` loop. -/
def dijkstraStep (g : Graph) (st : DijkstraState) : DijkstraState :=
  match popMin st.pq with
  | none => st
  | some (e, rest) =>
    if e.2 ∈ st.visited then { st with pq := rest }
    else processVertex g e.2 e.1 { st with pq := rest }

/-- The loop, indexed by fuel.  `dijkstraFuel` below is proved sufficient to
drain the queue, so this equals the Python loop, which always terminates. -/
def dijkstraLoop (g : Graph) : ℕ → DijkstraState → DijkstraState
  | 0, st => st
  | fuel + 1, st => if st.pq = [] then st else dijkstraLoop g fuel (dijkstraStep g st)

/-- `dist = {u: inf for u in graph}; prev = {u: None for u in graph};
dist[source] = 0.0; pq = [(0.0, source)]; visited = set()`.
(`prev` is observed only through `.get`, under which a key bound to `None`
and an absent key agree, so it is embedded as a function into `Option ℕ`;
`visited` is kept as its insertion-ordered list of elements.) -/
def initState (g : Graph) (src : ℕ) : DijkstraState :=
  { dist := upd (fun v => if v ∈ keys g then some ⊤ else none) src (some ((0 : ℚ) : WithTop ℚ))
  , prev := fun _ => none
  , pq := [((0 : ℚ), src)]
  , visited := [] }

/-- Fuel sufficient to drain the queue: one unit per queue entry that can
ever exist (each key is settled at most once, pushing at most its degree). -/
def dijkstraFuel (g : Graph) : ℕ :=
  1 + ((keys g).dedup.map (fun u => 1 + (adjOf g u).length)).sum

/-- The state in which the `while pq:` loop of `dijkstra` terminates. -/
def finalState (g : Graph) (src : ℕ) : DijkstraState :=
  dijkstraLoop g (dijkstraFuel g) (initState g src)

/-- `dijkstra(graph, source)`: the returned `(dist, prev)` pair. -/
def dijkstra (g : Graph) (src : ℕ) : (ℕ → Option (WithTop ℚ)) × (ℕ → Option ℕ) :=
  ((finalState g src).dist, (finalState g src).prev)

/-! ## Path reconstruction (`reconstruct_path`, lines 30–38) -/

/-- The chain `target, prev[target], ...` followed by the
`while cur is not None:` loop, fuel-indexed (the Python loop terminates
exactly when the predecessor chain is finite; every caller in this file
supplies fuel proved to cover the chain). -/
def reconstructAux (prevm : ℕ → Option ℕ) : ℕ → ℕ → List ℕ
  | 0, cur => [cur]
  | fuel + 1, cur =>
    match prevm cur with
    | none => [cur]
    | some nxt => cur :: reconstructAux prevm fuel nxt

/-- `reconstruct_path(prev, target)`: build the chain, then reverse it. -/
def reconstruct_path (prevm : ℕ → Option ℕ) (target : ℕ) (fuel : ℕ) : List ℕ :=
  (reconstructAux prevm fuel target).reverse

/-! ## Multi-target route (`compute_route`, lines 198–238) -/

/-- `min(remaining, key=f)` starting from the current best: Python's `min`
keeps the earliest element and replaces it only on a strictly smaller key. -/
def minByAux (f : ℕ → WithTop ℚ) : ℕ → List ℕ → ℕ
  | best, [] => best
  | best, x :: xs => if f x < f best then minByAux f x xs else minByAux f best xs

/-- The two result shapes of `compute_route`: the distance tree when no
targets are given, otherwise a path and its total cost. -/
inductive RouteOutput
  | tree : (ℕ → Option (WithTop ℚ)) → (ℕ → Option ℕ) → RouteOutput
  | route : List ℕ → WithTop ℚ → RouteOutput

/-- The `while remaining:` loop of `compute_route`.  Each iteration removes
the selected target, so `remaining.length` is exact fuel for the Python
loop. -/
def routeLoop (g : Graph) : ℕ → List ℕ → ℕ → List ℕ → WithTop ℚ → List ℕ × WithTop ℚ
  | _, [], _, path, total => (path, total)
  | 0, _ :: _, _, path, total => (path, total)
  | fuel + 1, t :: rest, current, path, total =>
    let dp := dijkstra g current
    let nearest := minByAux (fun v => distOf dp.1 v) t rest
    let segment := reconstruct_path dp.2 nearest (dijkstraFuel g)
    let path' :=
      if path ≠ [] ∧ segment ≠ [] ∧ segment.head? = path.getLast? then
        path ++ segment.tail
      else path ++ segment
    let total' := total + ((dp.1 nearest).getD (0 : WithTop ℚ))
    routeLoop g fuel ((t :: rest).erase nearest) nearest path' total'

/-- `compute_route(graph, source, targets)`. -/
def compute_route (g : Graph) (source : ℕ) (targets : List ℕ) : RouteOutput :=
  if targets.isEmpty then RouteOutput.tree (dijkstra g source).1 (dijkstra g source).2
  else
    let r := routeLoop g targets.length targets source [] 0
    RouteOutput.route r.1 r.2

/-- "Every requested target is reachable at the step where it is selected":
the run of the greedy loop never selects a target whose tentative distance
from the current position is infinite.  Defined by the same recursion as
`routeLoop`. -/
def selReachableF (g : Graph) : ℕ → ℕ → List ℕ → Bool
  | _, _, [] => true
  | 0, _, _ :: _ => true
  | fuel + 1, current, t :: rest =>
    let dp := dijkstra g current
    let nearest := minByAux (fun v => distOf dp.1 v) t rest
    decide (distOf dp.1 nearest ≠ ⊤) && selReachableF g fuel nearest ((t :: rest).erase nearest)

/-- Wrapper fixing the fuel of `selReachableF`. -/
def selReachable (g : Graph) (source : ℕ) (targets : List ℕ) : Bool :=
  selReachableF g targets.length source targets

/-- The value of the single graph edge `u → v` as an extended rational
(`⊤` when the edge is absent). -/
def ewT (g : Graph) (u v : ℕ) : WithTop ℚ :=
  match edgeW g u v with
  | some w => ((w : ℚ) : WithTop ℚ)
  | none => ⊤

/-- Sum of the graph's edge weights along the consecutive pairs of a path
(the quantity the round-trip property C8 compares with the distance map). -/
def pathCost (g : Graph) : List ℕ → WithTop ℚ
  | [] => 0
  | [_] => 0
  | u :: v :: rest => ewT g u v + pathCost g (v :: rest)

/-! ## Edge weights and the priority graph (`dijkstra.py`, lines 40–113)

`calculate_edge_weight` is pure field arithmetic and is embedded generically
over a linear ordered field, so that the same definition serves both the
exact (`ℚ`) statements and the `ℝ`-valued graph construction, which needs
trigonometric functions for `haversine_distance`. -/

/-- `calculate_edge_weight(base_distance_m, destination_priority, alpha)`:
clamp the priority to `[0,1]`, then divide the distance by
`1 + alpha * (priority * 10)`. -/
def calculate_edge_weight {K : Type} [LinearOrderedField K]
    (base_distance_m destination_priority alpha : K) : K :=
  let priority := max 0 (min 1 destination_priority)
  base_distance_m / (1 + alpha * (priority * 10))

/-- `math.radians`. -/
noncomputable def radians (x : ℝ) : ℝ := x * Real.pi / 180

/-- `haversine_distance(lat1, lon1, lat2, lon2)` over `ℝ`.  (The `or 0.0`
guards in the Python body are the identity on float inputs — `None` never
reaches this far in the embedding, callers apply `orZero` first — and
`Real.sqrt`/`Real.arcsin` agree with `math.sqrt`/`math.asin` on the
arguments produced here; outside `[0, 1]` Python would raise where
`Real.sqrt`/`arcsin` clamp, which no theorem below relies on.) -/
noncomputable def haversine_distance (lat1 lon1 lat2 lon2 : ℝ) : ℝ :=
  let R : ℝ := 6371000
  let phi1 := radians lat1
  let phi2 := radians lat2
  let dphi := radians (lat2 - lat1)
  let dlambda := radians (lon2 - lon1)
  let a := Real.sin (dphi / 2) ^ 2 + Real.cos phi1 * Real.cos phi2 * Real.sin (dlambda / 2) ^ 2
  let c := 2 * Real.arcsin (Real.sqrt a)
  R * c

/-- A `Node` record as used by the graph builder: id plus optional
coordinates. -/
structure NodeR where
  id : ℕ
  latitude : Option ℝ
  longitude : Option ℝ

/-- Python's `x or 0.0` on an optional coordinate (`None ↦ 0.0`; on a float
`x or 0.0` returns `x` except for `±0.0`, where it returns `0.0 = x`). -/
def orZero (x : Option ℝ) : ℝ := x.getD 0

/-- The adjacency list built by `build_priority_graph` for the `i`-th node
`u`: one edge to every other position `j ≠ i`, weighted by
`calculate_edge_weight` of the haversine distance and the destination's
priority score (`priority_scores.get(node_v.id, 0.0)`). -/
noncomputable def nodeEdges (nodes : List NodeR) (priority_scores : ℕ → Option ℝ)
    (alpha : ℝ) (i : ℕ) (u : NodeR) : List (ℕ × ℝ) :=
  nodes.enum.filterMap fun jv =>
    if jv.1 = i then none
    else some (jv.2.id,
      calculate_edge_weight
        (haversine_distance (orZero u.latitude) (orZero u.longitude)
          (orZero jv.2.latitude) (orZero jv.2.longitude))
        ((priority_scores jv.2.id).getD 0) alpha)

/-- `build_priority_graph(nodes, priority_scores, alpha)`.  (The Python dict
keyed by `node.id` is flattened to one entry per node position; when all ids
are distinct — the only case arising from the database — the two agree, and
in general both carry exactly the same multiset of weighted edges, which is
all the claims quantify over.) -/
noncomputable def build_priority_graph (nodes : List NodeR)
    (priority_scores : ℕ → Option ℝ) (alpha : ℝ) : List (ℕ × List (ℕ × ℝ)) :=
  nodes.enum.map fun iu => (iu.2.id, nodeEdges nodes priority_scores alpha iu.1 iu.2)

/-! ## The priority calculator (`priority_calculator.py`)

Embedded generically over a linear ordered field: the `ℚ` instance serves
the exact bound statements, the `ℝ` instance is used by
`calculate_node_priorities`, whose distances come from
`haversine_distance`. -/

/-- The constructor arguments of `PriorityCalculator`. -/
structure PriorityCalculator (K : Type) where
  distance_weight : K
  waste_weight : K
  gas_weight : K
  temperature_weight : K
  humidity_weight : K
  max_distance_m : K

/-- The global `priority_calculator = PriorityCalculator()` instance, with
the default weights `(0.25, 0.35, 0.25, 0.10, 0.05)` and cap `2000.0`. -/
def priority_calculator {K : Type} [LinearOrderedField K] : PriorityCalculator K :=
  ⟨0.25, 0.35, 0.25, 0.10, 0.05, 2000⟩

/-- `PriorityCalculator.calculate_single_priority`. -/
def PriorityCalculator.calculate_single_priority {K : Type} [LinearOrderedField K]
    (pc : PriorityCalculator K)
    (distance_m waste_level gas_level temperature humidity : K) : K :=
  let distance_norm := min 1 (max 0 (distance_m / pc.max_distance_m))
  let distance_priority := 1 - distance_norm
  let waste_priority := max 0 (min 1 waste_level)
  let gas_priority := max 0 (min 1 gas_level)
  let temp_deviation := |temperature - 25| / 15
  let temp_priority := max 0 (min 1 temp_deviation)
  let humidity_priority := max 0 (min 1 ((humidity - 50) / 50))
  let priority :=
    pc.distance_weight * distance_priority +
    pc.waste_weight * waste_priority +
    pc.gas_weight * gas_priority +
    pc.temperature_weight * temp_priority +
    pc.humidity_weight * humidity_priority
  max 0 (min 1 priority)

/-- A sensor reading, with the fields `_predict_priority_with_ai` reads
(`timestamp.hour` and `timestamp.weekday()` are kept as the two naturals the
feature vector uses). -/
structure Reading (K : Type) where
  waste_level : K
  gas_level : K
  temperature : K
  humidity : K
  hour : ℕ
  weekday : ℕ

/-- `PriorityCalculator._predict_priority_with_ai`.  The whole `try:` body —
building the feature list, `model.predict([features])[0]`, and the `float`
conversion — is the fallible call `predict`; `Except.error` is a raised
exception, answered by the `except:` fallback to the rule-based score. -/
def PriorityCalculator._predict_priority_with_ai {K : Type} [LinearOrderedField K]
    (pc : PriorityCalculator K) (predict : List K → Except Unit K)
    (reading : Reading K) (distance_m : K) : K :=
  let features : List K :=
    [distance_m, reading.temperature, reading.humidity, reading.gas_level,
     reading.waste_level, reading.temperature, 0, reading.humidity, 0,
     reading.gas_level, 0, reading.waste_level, 0,
     (reading.hour : K), (reading.weekday : K)]
  match predict features with
  | Except.ok prediction => max 0 (min 1 prediction)
  | Except.error _ =>
      pc.calculate_single_priority distance_m reading.waste_level reading.gas_level
        reading.temperature reading.humidity

/-- `PriorityCalculator.calculate_node_priorities`.  `load_model()` is the
parameter `loaded_model`; `latest_readings` is the per-node latest reading
map `_get_latest_readings` returns. -/
noncomputable def PriorityCalculator.calculate_node_priorities
    (pc : PriorityCalculator ℝ) (nodes : List NodeR) (user_lat user_lng : ℝ)
    (use_ai_model : Bool) (loaded_model : Option (List ℝ → Except Unit ℝ))
    (latest_readings : ℕ → Option (Reading ℝ)) : List (ℕ × ℝ) :=
  let ai_model := if use_ai_model then loaded_model else none
  nodes.foldl
    (fun priorities node =>
      match latest_readings node.id with
      | none => dinsert priorities node.id 0
      | some reading =>
        let distance_m :=
          haversine_distance user_lat user_lng (orZero node.latitude) (orZero node.longitude)
        let priority :=
          match ai_model with
          | some m => pc._predict_priority_with_ai m reading distance_m
          | none =>
              pc.calculate_single_priority distance_m reading.waste_level
                reading.gas_level reading.temperature reading.humidity
        dinsert priorities node.id priority)
    []

/-! ## The model trainer (`ai/train_model.py`) -/

/-- `_calculate_priority_score` from `train_model.py` (the training target). -/
def _calculate_priority_score {K : Type} [LinearOrderedField K]
    (distance_m waste_level gas_level temperature humidity : K) : K :=
  let distance_norm := max 0 (min 1 (distance_m / 2000))
  let distance_priority := 1 - distance_norm
  let waste_priority := max 0 (min 1 waste_level)
  let gas_priority := max 0 (min 1 gas_level)
  let temp_deviation := |temperature - 25| / 15
  let temp_priority := max 0 (min 1 temp_deviation)
  let humidity_priority := max 0 (min 1 ((humidity - 50) / 50))
  let priority :=
    0.25 * distance_priority + 0.35 * waste_priority + 0.25 * gas_priority +
    0.10 * temp_priority + 0.05 * humidity_priority
  max 0 (min 1 priority)

/-- The observable outcomes of `train_from_db`: the two `ValueError`s, or a
trained model recording which rows were fitted and which were validated. -/
inductive TrainOutcome (σ : Type)
  | errNoData : TrainOutcome σ
  | errInsufficientData : TrainOutcome σ
  | trained : List σ → List σ → TrainOutcome σ

/-- Whether the outcome is one of the two raised `ValueError`s. -/
def TrainOutcome.isError {σ : Type} : TrainOutcome σ → Bool
  | errNoData => true
  | errInsufficientData => true
  | trained _ _ => false

/-- `train_from_db`: `samples` are the per-node feature rows of
`_extract_features_df`; `tts` is sklearn's `train_test_split` (an external
collaborator, passed as a parameter). -/
def train_from_db {σ : Type} (samples : List σ) (tts : List σ → List σ × List σ) :
    TrainOutcome σ :=
  if samples.isEmpty then TrainOutcome.errNoData
  else if samples.length < 5 then TrainOutcome.errInsufficientData
  else if 10 ≤ samples.length then TrainOutcome.trained (tts samples).1 (tts samples).2
  else TrainOutcome.trained samples samples

instance (g : Graph) : Decidable (NonnegG g) := by unfold NonnegG; infer_instance

instance (g : Graph) : Decidable (NoParallel g) := by unfold NoParallel; infer_instance

/-- A basic, order-preserving stand-in for `train_test_split` used to witness
the training theorem on concrete data: hold out the first two rows. -/
def ttsDrop2 : List ℕ → List ℕ × List ℕ := fun l => (l.drop 2, l.take 2)

/-- The four-vertex graph on which the greedy multi-target traversal visits
target `1` twice: once as a selected target and once more as an intermediate
hop of the segment from `2` to `3`. -/
def gRevisit : Graph := [(0, [(1, 1)]), (1, [(2, 1), (3, 1)]), (2, [(1, 1), (3, 3)]), (3, [])]

/-- The graph of the repository's own `DijkstraTests.test_small_graph`. -/
def gSmallTest : Graph := [(1, [(2, 1), (3, 4)]), (2, [(3, 2)]), (3, [])]

/-! ## `compute_optimal_route` (`dijkstra.py`, lines 115–196)

`compute_optimal_route` runs `dijkstra` on the graph returned by
`build_priority_graph`, whose weights are real-valued, and may add the
virtual source `'user_location'` — a string key that can never equal an
integer node id.  The Dijkstra machinery above is therefore mirrored at key
type `Option ℕ` (`none` being the virtual key) and weight type `ℝ`. -/

/-- A vertex key inside `compute_optimal_route`: an integer node id
(`some id`) or the string `'user_location'` (`none`). -/
abbrev VKey : Type := Option ℕ

/-- The graph `compute_optimal_route` hands to `dijkstra`. -/
abbrev GraphV : Type := List (VKey × List (VKey × ℝ))

/-- First-match lookup in an association list keyed by `VKey`. -/
def alookupV {α : Type} (l : List (VKey × α)) (k : VKey) : Option α :=
  (l.find? (fun p => p.1 == k)).map Prod.snd

/-- Pointwise update of a `VKey`-keyed total function. -/
def updV {α : Type} (f : VKey → α) (k : VKey) (v : α) : VKey → α :=
  fun x => if x = k then v else f x

/-- The keys of a `GraphV`. -/
def keysV (g : GraphV) : List VKey := g.map Prod.fst

/-- `graph.get(u, [])` on a `GraphV`. -/
def adjOfV (g : GraphV) (u : VKey) : List (VKey × ℝ) := (alookupV g u).getD []

/-- A walk from `u` to `t` in a `GraphV` together with its total weight. -/
inductive WalkV (g : GraphV) : VKey → VKey → ℝ → Prop
  | nil (u : VKey) : WalkV g u u 0
  | cons {u v t : VKey} {w c : ℝ} :
      (v, w) ∈ adjOfV g u → WalkV g v t c → WalkV g u t (w + c)

/-- Tie-breaking order on the keys of the real-weighted priority queue.
Integer ids compare as integers; the virtual key is placed first.  (On a tie
between the virtual key and an integer id Python's tuple comparison would
raise `TypeError`; no theorem below depends on how such a tie is ordered.) -/
def vkeyLe : VKey → VKey → Prop
  | none, _ => True
  | some _, none => False
  | some a, some b => a ≤ b

instance : ∀ a b : VKey, Decidable (vkeyLe a b)
  | none, _ => isTrue trivial
  | some _, none => isFalse id
  | some a, some b => Nat.decLe a b

/-- Lexicographic `heapq` order on `(distance, key)` pairs with real
distances. -/
def pqLeV (a b : ℝ × VKey) : Prop := a.1 < b.1 ∨ (a.1 = b.1 ∧ vkeyLe a.2 b.2)

noncomputable instance (a b : ℝ × VKey) : Decidable (pqLeV a b) := by
  unfold pqLeV; infer_instance

/-- `heappop` on the real-weighted queue: remove the least pair, keeping the
remaining multiset of entries. -/
noncomputable def popMinV : List (ℝ × VKey) → Option ((ℝ × VKey) × List (ℝ × VKey))
  | [] => none
  | x :: xs =>
    match popMinV xs with
    | none => some (x, [])
    | some (m, rest) => if pqLeV x m then some (x, xs) else some (m, x :: rest)

/-- The state of the `while pq:` loop of `dijkstra` on a `GraphV`. -/
structure DijkstraStateV where
  dist : VKey → Option (WithTop ℝ)
  prev : VKey → Option VKey
  pq : List (ℝ × VKey)
  visited : List VKey

/-- `dist.get(v, float('inf'))` with real distances. -/
def distOfV (dist : VKey → Option (WithTop ℝ)) (v : VKey) : WithTop ℝ := (dist v).getD ⊤

/-- One relaxation of the edge `e` out of the just-settled key `u`. -/
noncomputable def relaxOneV (u : VKey) (d : ℝ) (st : DijkstraStateV) (e : VKey × ℝ) :
    DijkstraStateV :=
  let nd : ℝ := d + e.2
  if ((nd : ℝ) : WithTop ℝ) < distOfV st.dist e.1 then
    { st with dist := updV st.dist e.1 (some ((nd : ℝ) : WithTop ℝ))
            , prev := updV st.prev e.1 (some u)
            , pq := st.pq ++ [(nd, e.1)] }
  else st

/-- Settle the unvisited key `u` popped with distance `d`. -/
noncomputable def processVertexV (g : GraphV) (u : VKey) (d : ℝ) (st : DijkstraStateV) :
    DijkstraStateV :=
  (adjOfV g u).foldl (relaxOneV u d) { st with visited := st.visited ++ [u] }

/-- One iteration of the `while pq:` loop on a `GraphV`. -/
noncomputable def dijkstraStepV (g : GraphV) (st : DijkstraStateV) : DijkstraStateV :=
  match popMinV st.pq with
  | none => st
  | some (e, rest) =>
    if e.2 ∈ st.visited then { st with pq := rest }
    else processVertexV g e.2 e.1 { st with pq := rest }

/-- The loop, fuel-indexed.  `dijkstraFuelV` below is proved to drain the
queue with no hypotheses at all (`finalStateV_pq`), so this equals the
Python loop, which terminates on every input. -/
noncomputable def dijkstraLoopV (g : GraphV) : ℕ → DijkstraStateV → DijkstraStateV
  | 0, st => st
  | fuel + 1, st => if st.pq = [] then st else dijkstraLoopV g fuel (dijkstraStepV g st)

/-- The initial state of `dijkstra(graph, source)` on a `GraphV`. -/
def initStateV (g : GraphV) (src : VKey) : DijkstraStateV :=
  { dist := updV (fun v => if v ∈ keysV g then some ⊤ else none) src
      (some ((0 : ℝ) : WithTop ℝ))
  , prev := fun _ => none
  , pq := [((0 : ℝ), src)]
  , visited := [] }

/-- Fuel sufficient to drain the queue: one unit per entry that can ever be
pushed, as for the rational version. -/
def dijkstraFuelV (g : GraphV) : ℕ :=
  1 + ((keysV g).dedup.map (fun u => 1 + (adjOfV g u).length)).sum

/-- The state in which the `while pq:` loop terminates on a `GraphV`. -/
noncomputable def finalStateV (g : GraphV) (src : VKey) : DijkstraStateV :=
  dijkstraLoopV g (dijkstraFuelV g) (initStateV g src)

/-- `dijkstra(graph, source)` on a `GraphV`: the returned `(dist, prev)`. -/
noncomputable def dijkstraV (g : GraphV) (src : VKey) :
    (VKey → Option (WithTop ℝ)) × (VKey → Option VKey) :=
  ((finalStateV g src).dist, (finalStateV g src).prev)

/-- The termination potential of the loop, as for the rational version. -/
def potentialV (g : GraphV) (st : DijkstraStateV) : ℕ :=
  st.pq.length +
    (((keysV g).dedup.filter (fun u => decide (u ∉ st.visited))).map
      (fun u => 1 + (adjOfV g u).length)).sum

/-- `min(unvisited, key=...)` over node ids with real-valued keys: Python's
`min` keeps the earliest element and replaces it only on a strictly smaller
key. -/
noncomputable def minByAuxV (f : ℕ → WithTop ℝ) : ℕ → List ℕ → ℕ
  | best, [] => best
  | best, x :: xs => if f x < f best then minByAuxV f x xs else minByAuxV f best xs

/-- The outcomes of `compute_optimal_route`: the `ValueError` raised on an
empty node list, or the `path` and `total_cost` of the returned dict. -/
inductive OptRouteOutput
  | error : OptRouteOutput
  | route : List ℕ → WithTop ℝ → OptRouteOutput

/-- The integer-keyed priority graph injected into `VKey` keys:
`compute_optimal_route` reuses the dict built by `build_priority_graph`
unchanged, and an integer key never equals the string `'user_location'`. -/
def injectV (g : List (ℕ × List (ℕ × ℝ))) : GraphV :=
  g.map fun e => (some e.1, e.2.map fun p => (some p.1, p.2))

/-- The adjacency list `graph['user_location']`: one edge from the virtual
source to every node, weighted like the ordinary priority edges. -/
noncomputable def userEdges (nodes : List NodeR) (priority_scores : ℕ → Option ℝ)
    (alpha : ℝ) (lat lng : ℝ) : List (VKey × ℝ) :=
  nodes.map fun node =>
    (some node.id,
      calculate_edge_weight
        (haversine_distance lat lng (orZero node.latitude) (orZero node.longitude))
        ((priority_scores node.id).getD 0) alpha)

/-- The `while unvisited:` loop of `compute_optimal_route`: select the
remaining node id nearest from the current position (recomputing `dijkstra`
from `current` each iteration, exactly as the Python loop does), append it
to the path, add `current_distances.get(next_node, 0.0)` to the cost, and
remove it from the remaining list.  Each iteration removes the selected id,
so `remaining.length` is exact fuel for the Python loop, which therefore
terminates regardless of the edge weights. -/
noncomputable def optLoop (g : GraphV) :
    ℕ → List ℕ → VKey → List ℕ → WithTop ℝ → List ℕ × WithTop ℝ
  | _, [], _, path, total => (path, total)
  | 0, _ :: _, _, path, total => (path, total)
  | fuel + 1, t :: rest, current, path, total =>
    let dp := dijkstraV g current
    let next_node := minByAuxV (fun v => distOfV dp.1 (some v)) t rest
    optLoop g fuel ((t :: rest).erase next_node) (some next_node)
      (path ++ [next_node]) (total + ((dp.1 (some next_node)).getD 0))

/-- `compute_optimal_route(nodes, priority_scores, source_node_id,
user_location, alpha)`.  `user_location` is `some (lat, lng)` when the
Python argument is a truthy dict with both the `'lat'` and `'lng'` keys,
`none` otherwise; `source_node_id = some 0` is falsy in Python
(`elif source_node_id:`), so it falls through to `nodes[0].id` exactly as
`None` does.  The `unvisited` set of node ids is kept as its deduplicated
list in first-occurrence order: the set's iteration order only breaks ties
in `min`, and no theorem below depends on the tie order.  The initial
`dijkstra` call of line 160 is consulted only by the virtual-source first
hop; in the integer-source branch its result is dead (the loop recomputes
distances from `current` each iteration) and it is elided there. -/
noncomputable def compute_optimal_route (nodes : List NodeR)
    (priority_scores : ℕ → Option ℝ) (source_node_id : Option ℕ)
    (user_location : Option (ℝ × ℝ)) (alpha : ℝ) : OptRouteOutput :=
  match nodes with
  | [] => OptRouteOutput.error
  | n0 :: rest0 =>
    let base : GraphV := injectV (build_priority_graph (n0 :: rest0) priority_scores alpha)
    let unvisited : List ℕ := ((n0 :: rest0).map (fun n => n.id)).dedup
    match user_location with
    | none =>
      let g := base
      let source : VKey :=
        match source_node_id with
        | some s => if s = 0 then some n0.id else some s
        | none => some n0.id
      let r := optLoop g unvisited.length unvisited source [] 0
      OptRouteOutput.route r.1 r.2
    | some ul =>
      let g := base ++ [(none, userEdges (n0 :: rest0) priority_scores alpha ul.1 ul.2)]
      let dp := dijkstraV g none
      match unvisited with
      | [] => OptRouteOutput.route [] 0
      | t :: rest =>
        let best_first := minByAuxV (fun v => distOfV dp.1 (some v)) t rest
        let r := optLoop g rest.length ((t :: rest).erase best_first) (some best_first)
          [best_first] ((dp.1 (some best_first)).getD 0)
        OptRouteOutput.route r.1 r.2

/-- A concrete node used to exercise `compute_optimal_route`. -/
def nodeA : NodeR := ⟨1, none, none⟩

/-- The loop invariant of `dijkstra`, following the classical proof: settled
(`visited`) vertices carry their true shortest distance, every finite
tentative distance is the cost of an actual walk and, if its vertex is
unsettled, is still represented in the queue, all edges out of settled
vertices are relaxed, and the predecessor map records a tree of relaxed
edges rooted at the source that respects the settling order.  `exc` is the
vertex (if any) whose outgoing edges are currently being relaxed and are
therefore exempt from the `relaxed` field. -/
structure InvE (g : Graph) (src : ℕ) (exc : Option ℕ) (st : DijkstraState) : Prop where
  dist_sound : ∀ v (c : ℚ), distOf st.dist v = ((c : ℚ) : WithTop ℚ) → Walk g src v c
  pq_walk : ∀ e ∈ st.pq, Walk g src e.2 e.1
  pq_ge : ∀ e ∈ st.pq, distOf st.dist e.2 ≤ ((e.1 : ℚ) : WithTop ℚ)
  pq_sub : ∀ e ∈ st.pq, e.2 = src ∨ ∃ x ∈ keys g, e.2 ∈ (adjOf g x).map Prod.fst
  visited_min : ∀ u ∈ st.visited, ∀ c : ℚ, Walk g src u c →
    distOf st.dist u ≤ ((c : ℚ) : WithTop ℚ)
  visited_fin : ∀ u ∈ st.visited, distOf st.dist u ≠ ⊤
  visited_sub : ∀ u ∈ st.visited, u = src ∨ ∃ x ∈ keys g, u ∈ (adjOf g x).map Prod.fst
  visited_nodup : st.visited.Nodup
  relaxed : ∀ u ∈ st.visited, some u ≠ exc → ∀ e ∈ adjOf g u,
    distOf st.dist e.1 ≤ distOf st.dist u + ((e.2 : ℚ) : WithTop ℚ)
  fresh : ∀ v, v ∉ st.visited → ∀ c : ℚ,
    distOf st.dist v = ((c : ℚ) : WithTop ℚ) → (c, v) ∈ st.pq
  src_zero : distOf st.dist src = 0
  prev_visited : ∀ v u, st.prev v = some u → u ∈ st.visited
  prev_edge : ∀ v u, st.prev v = some u → ∃ w : ℚ, (v, w) ∈ adjOf g u ∧
    distOf st.dist v = distOf st.dist u + ((w : ℚ) : WithTop ℚ)
  prev_order : ∀ v u, st.prev v = some u → v ∈ st.visited →
    st.visited.indexOf u < st.visited.indexOf v
  prev_src : st.prev src = none
  prev_some : ∀ v, v ≠ src → ∀ c : ℚ,
    distOf st.dist v = ((c : ℚ) : WithTop ℚ) → ∃ u, st.prev v = some u

/-- The full invariant: no vertex is exempt from `relaxed`. -/
def Inv (g : Graph) (src : ℕ) (st : DijkstraState) : Prop := InvE g src none st

/-- The termination potential of the `while pq:` loop: every iteration pops
one entry, and entries are only pushed while settling an unsettled key,
which happens at most once per key. -/
def potential (g : Graph) (st : DijkstraState) : ℕ :=
  st.pq.length +
    (((keys g).dedup.filter (fun u => decide (u ∉ st.visited))).map
      (fun u => 1 + (adjOf g u).length)).sum

end WasteBins

namespace WasteBins

/-! # Theorems -/

/-! ## Arithmetic helpers -/

theorem clamp01_nonneg {K : Type} [LinearOrderedField K] (x : K) :
    0 ≤ max 0 (min 1 x) := le_max_left 0 _

theorem clamp01_le_one {K : Type} [LinearOrderedField K] (x : K) :
    max 0 (min 1 x) ≤ 1 := max_le zero_le_one (min_le_left 1 x)

theorem clamp01_comm {K : Type} [LinearOrderedField K] (x : K) :
    max 0 (min 1 x) = min 1 (max 0 x) := by
  rw [max_min_distrib_left, max_eq_right (zero_le_one : (0 : K) ≤ 1)]

theorem clamp01_idem {K : Type} [LinearOrderedField K] (x : K) :
    max 0 (min 1 (max 0 (min 1 x))) = max 0 (min 1 x) := by
  rw [min_eq_right (clamp01_le_one x), max_eq_right (clamp01_nonneg x)]

/-! ## C3, C9, C7: the urgency scorer -/

/-- C3: for every input tuple of distance, waste level, gas level,
temperature, and humidity — including values far outside their normal
ranges — the rule-based urgency score `calculate_single_priority` and the
model-assisted score `_predict_priority_with_ai` (in both its prediction
and its fallback branch) return a value in the closed interval `[0, 1]`. -/
theorem urgency_scores_bounded :
    (∀ (pc : PriorityCalculator ℚ) (d w g t h : ℚ),
      0 ≤ pc.calculate_single_priority d w g t h ∧
        pc.calculate_single_priority d w g t h ≤ 1) ∧
    (∀ (pc : PriorityCalculator ℚ) (predict : List ℚ → Except Unit ℚ)
       (r : Reading ℚ) (d : ℚ),
      0 ≤ pc._predict_priority_with_ai predict r d ∧
        pc._predict_priority_with_ai predict r d ≤ 1) := by
  constructor
  · intro pc d w g t h
    exact ⟨clamp01_nonneg _, clamp01_le_one _⟩
  · intro pc predict r d
    simp only [PriorityCalculator._predict_priority_with_ai]
    cases predict _ with
    | ok p => exact ⟨clamp01_nonneg _, clamp01_le_one _⟩
    | error e => exact ⟨clamp01_nonneg _, clamp01_le_one _⟩

/-- C9: the training-target function `_calculate_priority_score` of the
model trainer agrees, on every input tuple, with the rule-based scorer
`calculate_single_priority` of the default `priority_calculator` instance
(weights 0.25/0.35/0.25/0.10/0.05, cap 2000 m): the model's training target
is exactly the rule-based urgency score. -/
theorem training_target_matches_rule_score (d w g t h : ℚ) :
    _calculate_priority_score d w g t h =
      (priority_calculator (K := ℚ)).calculate_single_priority d w g t h := by
  simp only [_calculate_priority_score, PriorityCalculator.calculate_single_priority,
    priority_calculator]
  rw [clamp01_comm (d / 2000)]

/-- C7: whenever the model prediction step fails (any raised exception,
embedded as `Except.error`), `_predict_priority_with_ai` returns the
rule-based score for that node, and `calculate_node_priorities` run with
such a model produces exactly the same priority map as the pure rule-based
run — no error escapes to the caller. -/
theorem ai_failure_falls_back_to_rule :
    (∀ (pc : PriorityCalculator ℝ) (predict : List ℝ → Except Unit ℝ)
       (r : Reading ℝ) (d : ℝ),
      (∀ fs, predict fs = Except.error ()) →
      pc._predict_priority_with_ai predict r d =
        pc.calculate_single_priority d r.waste_level r.gas_level
          r.temperature r.humidity) ∧
    (∀ (pc : PriorityCalculator ℝ) (nodes : List NodeR) (ulat ulng : ℝ)
       (predict : List ℝ → Except Unit ℝ) (readings : ℕ → Option (Reading ℝ)),
      (∀ fs, predict fs = Except.error ()) →
      pc.calculate_node_priorities nodes ulat ulng true (some predict) readings =
        pc.calculate_node_priorities nodes ulat ulng false none readings) := by
  have hsingle : ∀ (pc : PriorityCalculator ℝ) (predict : List ℝ → Except Unit ℝ)
      (r : Reading ℝ) (d : ℝ),
      (∀ fs, predict fs = Except.error ()) →
      pc._predict_priority_with_ai predict r d =
        pc.calculate_single_priority d r.waste_level r.gas_level
          r.temperature r.humidity := by
    intro pc predict r d hfail
    simp only [PriorityCalculator._predict_priority_with_ai]
    rw [hfail]
  refine ⟨hsingle, ?_⟩
  intro pc nodes ulat ulng predict readings hfail
  unfold PriorityCalculator.calculate_node_priorities
  apply List.foldl_ext
  intro acc node _
  cases hr : readings node.id with
  | none => simp [hr]
  | some r => simp [hr, hsingle pc predict r _ hfail]

/-- C7 witness: at a concrete calculator, node and always-failing predictor,
the fallback equality holds. -/
theorem ai_failure_falls_back_to_rule_witness :
    (priority_calculator (K := ℝ))._predict_priority_with_ai
        (fun _ => Except.error ()) ⟨0, 0, 0, 0, 0, 0⟩ 0 =
      (priority_calculator (K := ℝ)).calculate_single_priority 0 0 0 0 0 ∧
    (priority_calculator (K := ℝ)).calculate_node_priorities
        [⟨7, none, none⟩] 0 0 true (some (fun _ => Except.error ()))
        (fun _ => some ⟨0, 0, 0, 0, 0, 0⟩) =
      (priority_calculator (K := ℝ)).calculate_node_priorities
        [⟨7, none, none⟩] 0 0 false none (fun _ => some ⟨0, 0, 0, 0, 0, 0⟩) :=
  ⟨ai_failure_falls_back_to_rule.1 (priority_calculator (K := ℝ))
      (fun _ => Except.error ()) ⟨0, 0, 0, 0, 0, 0⟩ 0 (fun _ => rfl),
   ai_failure_falls_back_to_rule.2 (priority_calculator (K := ℝ))
      [⟨7, none, none⟩] 0 0 (fun _ => Except.error ())
      (fun _ => some ⟨0, 0, 0, 0, 0, 0⟩) (fun _ => rfl)⟩

/-! ## C4, C10: edge weights and the priority graph -/

theorem edge_weight_denom_pos {K : Type} [LinearOrderedField K] {α : K} (hα : 0 ≤ α)
    (p : K) : 0 < 1 + α * (max 0 (min 1 p) * 10) :=
  lt_add_of_lt_of_nonneg zero_lt_one
    (mul_nonneg hα (mul_nonneg (clamp01_nonneg p) (by norm_num)))

theorem edge_weight_denom_le {K : Type} [LinearOrderedField K] {α : K} (hα : 0 ≤ α)
    (p : K) : 1 + α * (max 0 (min 1 p) * 10) ≤ 1 + 10 * α := by
  have h1 : α * (max 0 (min 1 p) * 10) ≤ α * (1 * 10) :=
    mul_le_mul_of_nonneg_left
      (mul_le_mul_of_nonneg_right (clamp01_le_one p) (by norm_num)) hα
  have h2 : α * (1 * 10) = 10 * α := by ring
  linarith

/-- C4 (amended): on in-range urgencies the produced edge weight is exactly
`distance / (1 + alpha * urgency * 10)`, and for a fixed **positive** base
distance and `alpha > 0`, the destination with the strictly higher urgency
score in `[0,1]` gets the strictly lower inbound edge weight.  (At base
distance `0` both weights are `0`, see the counterexample.) -/
theorem edge_weight_formula_and_monotone :
    (∀ d p α : ℚ, 0 ≤ p → p ≤ 1 →
      calculate_edge_weight d p α = d / (1 + α * p * 10)) ∧
    (∀ d p₁ p₂ α : ℚ, 0 < α → 0 < d → 0 ≤ p₁ → p₁ < p₂ → p₂ ≤ 1 →
      calculate_edge_weight d p₂ α < calculate_edge_weight d p₁ α) := by
  have hclamp : ∀ p : ℚ, 0 ≤ p → p ≤ 1 → max 0 (min 1 p) = p := by
    intro p h0 h1
    rw [min_eq_right h1, max_eq_right h0]
  constructor
  · intro d p α h0 h1
    simp only [calculate_edge_weight, hclamp p h0 h1]
    ring_nf
  · intro d p₁ p₂ α hα hd h0 hlt h1
    simp only [calculate_edge_weight,
      hclamp p₁ h0 (le_of_lt (lt_of_lt_of_le hlt h1)),
      hclamp p₂ (le_of_lt (lt_of_le_of_lt h0 hlt)) h1]
    apply div_lt_div_of_pos_left hd
    · exact lt_add_of_lt_of_nonneg zero_lt_one
        (mul_nonneg hα.le (mul_nonneg h0 (by norm_num)))
    · have : α * (p₁ * 10) < α * (p₂ * 10) := by
        apply mul_lt_mul_of_pos_left _ hα
        linarith
      linarith

/-- C4 counterexample: at base distance `0` (two destinations at identical
coordinates), `alpha = 1/2 > 0` and urgencies `1 > 0` (both in `[0,1]`), the
higher-urgency destination does **not** get a strictly lower inbound edge
weight: both weights are `0`. -/
theorem edge_weight_not_strict_at_zero_distance :
    (0 : ℚ) < 1 / 2 ∧ (0 : ℚ) ≤ 0 ∧ (0 : ℚ) < 1 ∧ (1 : ℚ) ≤ 1 ∧
    calculate_edge_weight (0 : ℚ) 1 (1 / 2) = 0 ∧
    calculate_edge_weight (0 : ℚ) 0 (1 / 2) = 0 ∧
    ¬ calculate_edge_weight (0 : ℚ) 1 (1 / 2) < calculate_edge_weight (0 : ℚ) 0 (1 / 2) := by
  refine ⟨by norm_num, le_refl 0, by norm_num, le_refl 1, ?_, ?_, ?_⟩ <;>
    simp [calculate_edge_weight]

/-- C4 witness: concrete positive distance, `alpha = 1/2`, urgencies
`0.9 > 0.2` (the repository's own `test_inverse_priority_weight` data). -/
theorem edge_weight_formula_and_monotone_witness :
    calculate_edge_weight (100 : ℚ) (9 / 10) (1 / 2) <
      calculate_edge_weight (100 : ℚ) (2 / 10) (1 / 2) :=
  edge_weight_formula_and_monotone.2 100 (2 / 10) (9 / 10) (1 / 2)
    (by norm_num) (by norm_num) (by norm_num) (by norm_num) (by norm_num)

theorem haversine_nonneg (lat1 lon1 lat2 lon2 : ℝ) :
    0 ≤ haversine_distance lat1 lon1 lat2 lon2 := by
  simp only [haversine_distance]
  refine mul_nonneg (by norm_num) (mul_nonneg (by norm_num) ?_)
  exact Real.arcsin_nonneg.mpr (Real.sqrt_nonneg _)

theorem calculate_edge_weight_le {K : Type} [LinearOrderedField K]
    (d p α : K) (hd : 0 ≤ d) (hα : 0 ≤ α) : calculate_edge_weight d p α ≤ d := by
  simp only [calculate_edge_weight]
  apply div_le_self hd
  exact le_add_of_nonneg_right
    (mul_nonneg hα (mul_nonneg (clamp01_nonneg p) (by norm_num)))

theorem calculate_edge_weight_nonneg {K : Type} [LinearOrderedField K]
    (d p α : K) (hd : 0 ≤ d) (hα : 0 ≤ α) : 0 ≤ calculate_edge_weight d p α := by
  simp only [calculate_edge_weight]
  exact div_nonneg hd (edge_weight_denom_pos hα p).le

theorem calculate_edge_weight_lb {K : Type} [LinearOrderedField K]
    (d p α : K) (hd : 0 ≤ d) (hα : 0 ≤ α) :
    d / (1 + 10 * α) ≤ calculate_edge_weight d p α := by
  simp only [calculate_edge_weight]
  exact div_le_div_of_nonneg_left hd (edge_weight_denom_pos hα p)
    (edge_weight_denom_le hα p)

/-- C10: `calculate_edge_weight` clamps the priority into `[0,1]` before
using it and, for non-negative distance and alpha, returns a weight between
`d / (1 + 10·alpha)` and `d`; consequently every edge that
`build_priority_graph` produces has a non-negative weight not exceeding the
haversine distance between the two nodes it connects. -/
theorem edge_weight_bounds :
    (∀ d p α : ℚ, 0 ≤ d → 0 ≤ α →
      calculate_edge_weight d p α = calculate_edge_weight d (max 0 (min 1 p)) α ∧
      d / (1 + 10 * α) ≤ calculate_edge_weight d p α ∧
      calculate_edge_weight d p α ≤ d) ∧
    (∀ (nodes : List NodeR) (ps : ℕ → Option ℝ) (α : ℝ), 0 ≤ α →
      ∀ entry ∈ build_priority_graph nodes ps α, ∀ e ∈ entry.2,
        0 ≤ e.2 ∧
        ∃ iu ∈ nodes.enum, ∃ jv ∈ nodes.enum, iu.1 ≠ jv.1 ∧ e.1 = jv.2.id ∧
          e.2 ≤ haversine_distance (orZero iu.2.latitude) (orZero iu.2.longitude)
                  (orZero jv.2.latitude) (orZero jv.2.longitude)) := by
  constructor
  · intro d p α hd hα
    refine ⟨?_, calculate_edge_weight_lb d p α hd hα, calculate_edge_weight_le d p α hd hα⟩
    simp only [calculate_edge_weight, clamp01_idem]
  · intro nodes ps α hα entry hentry e he
    simp only [build_priority_graph, List.mem_map] at hentry
    obtain ⟨iu, hiu, rfl⟩ := hentry
    simp only [nodeEdges, List.mem_filterMap] at he
    obtain ⟨jv, hjv, hsome⟩ := he
    by_cases hij : jv.1 = iu.1
    · simp [hij] at hsome
    · simp only [hij, if_false, Option.some.injEq] at hsome
      subst hsome
      have hhav := haversine_nonneg (orZero iu.2.latitude) (orZero iu.2.longitude)
        (orZero jv.2.latitude) (orZero jv.2.longitude)
      exact ⟨calculate_edge_weight_nonneg _ _ _ hhav hα,
        iu, hiu, jv, hjv, fun h => hij h.symm, rfl,
        calculate_edge_weight_le _ _ _ hhav hα⟩

/-- C10 witness: the bounds at distance `1`, raw priority `5` (out of
range), `alpha = 1`. -/
theorem edge_weight_bounds_witness :
    calculate_edge_weight (1 : ℚ) 5 1 = calculate_edge_weight 1 (max 0 (min 1 5)) 1 ∧
    (1 : ℚ) / (1 + 10 * 1) ≤ calculate_edge_weight 1 5 1 ∧
    calculate_edge_weight (1 : ℚ) 5 1 ≤ 1 :=
  edge_weight_bounds.1 1 5 1 (by norm_num) (by norm_num)

/-! ## C6: training thresholds -/

/-- C6: `train_from_db` raises on fewer than 5 samples; with at least 5 but
fewer than 10 it trains and validates on the entire dataset; with 10 or more
it fits on the split's train part and validates on the held-out part (the
two parts together being a permutation of the dataset). -/
theorem train_from_db_thresholds {σ : Type} (samples : List σ)
    (tts : List σ → List σ × List σ)
    (hsplit : ∀ l, ((tts l).1 ++ (tts l).2).Perm l) :
    (samples.length < 5 → (train_from_db samples tts).isError = true) ∧
    (5 ≤ samples.length → samples.length < 10 →
      train_from_db samples tts = TrainOutcome.trained samples samples) ∧
    (10 ≤ samples.length →
      train_from_db samples tts =
        TrainOutcome.trained (tts samples).1 (tts samples).2 ∧
      ((tts samples).1 ++ (tts samples).2).Perm samples) := by
  refine ⟨?_, ?_, ?_⟩
  · intro hlt
    unfold train_from_db
    by_cases he : samples.isEmpty
    · rw [if_pos he]; rfl
    · rw [if_neg he, if_pos hlt]; rfl
  · intro h5 h10
    unfold train_from_db
    rw [if_neg, if_neg (by omega), if_neg (by omega)]
    rw [List.isEmpty_iff, ← List.length_eq_zero]
    omega
  · intro h10
    refine ⟨?_, hsplit samples⟩
    unfold train_from_db
    rw [if_neg, if_neg (by omega), if_pos h10]
    rw [List.isEmpty_iff, ← List.length_eq_zero]
    omega

/-- C6 witness: six rows succeed, training and validating on all six. -/
theorem train_from_db_thresholds_witness :
    train_from_db [0, 1, 2, 3, 4, 5] ttsDrop2 =
      TrainOutcome.trained [0, 1, 2, 3, 4, 5] [0, 1, 2, 3, 4, 5] :=
  (train_from_db_thresholds [0, 1, 2, 3, 4, 5] ttsDrop2
    (fun l => by
      simp only [ttsDrop2]
      exact List.perm_append_comm.trans
        (by rw [List.take_append_drop]))).2.1
    (by norm_num) (by norm_num)

/-! ## Dictionary and queue lemmas -/

theorem upd_self {α : Type} (f : ℕ → α) (k : ℕ) (v : α) : upd f k v k = v := by
  simp [upd]

theorem upd_ne {α : Type} (f : ℕ → α) (k : ℕ) (v : α) {x : ℕ} (h : x ≠ k) :
    upd f k v x = f x := by
  simp [upd, h]

theorem alookup_mem {α : Type} {l : List (ℕ × α)} {k : ℕ} {v : α}
    (h : alookup l k = some v) : (k, v) ∈ l := by
  simp only [alookup] at h
  cases hf : l.find? (fun q => q.1 == k) with
  | none => rw [hf] at h; exact absurd h (by simp)
  | some p =>
    rw [hf] at h
    simp only [Option.map_some', Option.some.injEq] at h
    have hmem := List.mem_of_find?_eq_some hf
    have hbeq := List.find?_some hf
    rw [beq_iff_eq] at hbeq
    obtain ⟨p1, p2⟩ := p
    simp only at hbeq h
    subst hbeq
    subst h
    exact hmem

theorem adjOf_not_key {g : Graph} {u : ℕ} (h : u ∉ keys g) : adjOf g u = [] := by
  simp only [adjOf, alookup]
  rw [List.find?_eq_none.mpr]
  · rfl
  · intro p hp hbeq
    simp only [beq_iff_eq] at hbeq
    exact h (hbeq ▸ List.mem_map_of_mem Prod.fst hp)

theorem adjOf_sub {g : Graph} {u : ℕ} {e : ℕ × ℚ} (h : e ∈ adjOf g u) :
    ∃ p ∈ g, e ∈ p.2 := by
  by_cases hk : alookup g u = none
  · simp [adjOf, hk] at h
  · obtain ⟨l, hl⟩ := Option.ne_none_iff_exists'.mp hk
    refine ⟨(u, l), alookup_mem hl, ?_⟩
    simpa [adjOf, hl] using h

theorem adjOf_key {g : Graph} {u : ℕ} (h : adjOf g u ≠ []) : u ∈ keys g := by
  by_contra hk
  exact h (adjOf_not_key hk)

theorem nonneg_adj {g : Graph} (hg : NonnegG g) {u : ℕ} {e : ℕ × ℚ}
    (h : e ∈ adjOf g u) : 0 ≤ e.2 := by
  obtain ⟨p, hp, hep⟩ := adjOf_sub h
  exact hg p hp e hep

theorem pqLe_fst {a b : ℚ × ℕ} (h : pqLe a b) : a.1 ≤ b.1 := by
  rcases h with h | ⟨h, _⟩
  · exact h.le
  · exact h.le

theorem pqLe_trans {a b c : ℚ × ℕ} (h1 : pqLe a b) (h2 : pqLe b c) : pqLe a c := by
  rcases h1 with h1 | ⟨h1, h1'⟩ <;> rcases h2 with h2 | ⟨h2, h2'⟩
  · exact Or.inl (h1.trans h2)
  · exact Or.inl (lt_of_lt_of_eq h1 h2)
  · exact Or.inl (lt_of_eq_of_lt h1 h2)
  · exact Or.inr ⟨h1.trans h2, h1'.trans h2'⟩

theorem pqLe_total (a b : ℚ × ℕ) : pqLe a b ∨ pqLe b a := by
  rcases lt_trichotomy a.1 b.1 with h | h | h
  · exact Or.inl (Or.inl h)
  · rcases le_total a.2 b.2 with h2 | h2
    · exact Or.inl (Or.inr ⟨h, h2⟩)
    · exact Or.inr (Or.inr ⟨h.symm, h2⟩)
  · exact Or.inr (Or.inl h)

theorem popMin_eq_none {l : List (ℚ × ℕ)} : popMin l = none ↔ l = [] := by
  cases l with
  | nil => simp [popMin]
  | cons x xs =>
    simp only [popMin]
    cases popMin xs with
    | none => simp
    | some m =>
      obtain ⟨m, rest⟩ := m
      by_cases h : pqLe x m <;> simp [h]

theorem popMin_perm : ∀ {l : List (ℚ × ℕ)} {m : ℚ × ℕ} {rest : List (ℚ × ℕ)},
    popMin l = some (m, rest) → l.Perm (m :: rest)
  | [], m, rest => by simp [popMin]
  | x :: xs, m, rest => by
    simp only [popMin]
    cases hxs : popMin xs with
    | none =>
      intro h
      obtain rfl : xs = [] := popMin_eq_none.mp hxs
      simp only [Option.some.injEq, Prod.mk.injEq] at h
      obtain ⟨rfl, rfl⟩ := h
      rfl
    | some p =>
      obtain ⟨m', rest'⟩ := p
      have ih := popMin_perm hxs
      by_cases hle : pqLe x m'
      · simp only [hle, if_pos, Option.some.injEq, Prod.mk.injEq]
        intro h
        obtain ⟨rfl, rfl⟩ := h
        rfl
      · simp only [hle, if_neg, not_false_iff, Option.some.injEq, Prod.mk.injEq]
        intro h
        obtain ⟨rfl, rfl⟩ := h
        exact (ih.cons x).trans (List.Perm.swap m' x rest')

theorem popMin_min : ∀ {l : List (ℚ × ℕ)} {m : ℚ × ℕ} {rest : List (ℚ × ℕ)},
    popMin l = some (m, rest) → ∀ y ∈ l, pqLe m y
  | [], m, rest => by simp [popMin]
  | x :: xs, m, rest => by
    simp only [popMin]
    cases hxs : popMin xs with
    | none =>
      intro h y hy
      obtain rfl : xs = [] := popMin_eq_none.mp hxs
      simp only [Option.some.injEq, Prod.mk.injEq] at h
      obtain ⟨rfl, rfl⟩ := h
      simp only [List.mem_singleton] at hy
      subst hy
      exact Or.inr ⟨rfl, le_refl _⟩
    | some p =>
      obtain ⟨m', rest'⟩ := p
      have ih := popMin_min hxs
      by_cases hle : pqLe x m'
      · simp only [hle, if_pos, Option.some.injEq, Prod.mk.injEq]
        intro h y hy
        obtain ⟨rfl, rfl⟩ := h
        rcases List.mem_cons.mp hy with rfl | hy
        · exact Or.inr ⟨rfl, le_refl _⟩
        · exact pqLe_trans hle (ih y hy)
      · simp only [hle, if_neg, not_false_iff, Option.some.injEq, Prod.mk.injEq]
        intro h y hy
        obtain ⟨rfl, rfl⟩ := h
        rcases List.mem_cons.mp hy with rfl | hy
        · exact (pqLe_total m' y).resolve_right hle
        · exact ih y hy

/-! ## Walk lemmas -/

theorem walk_cost_nonneg {g : Graph} (hg : NonnegG g) {s v : ℕ} {c : ℚ}
    (h : Walk g s v c) : 0 ≤ c := by
  induction h with
  | nil => exact le_refl 0
  | cons he _ ih => exact add_nonneg (nonneg_adj hg he) ih

theorem walk_snoc {g : Graph} {s u v : ℕ} {c w : ℚ} (h : Walk g s u c)
    (he : (v, w) ∈ adjOf g u) : Walk g s v (c + w) := by
  induction h with
  | nil u => simpa using Walk.cons he (Walk.nil v)
  | cons he' hw ih =>
    have := Walk.cons he' (ih he)
    simpa [add_assoc] using this

/-! ## Relaxation preserves the invariant -/

theorem distOf_upd_self (f : ℕ → Option (WithTop ℚ)) (k : ℕ) (x : WithTop ℚ) :
    distOf (upd f k (some x)) k = x := by
  simp [distOf, upd]

theorem distOf_upd_ne (f : ℕ → Option (WithTop ℚ)) (k : ℕ) (x : WithTop ℚ)
    {v : ℕ} (h : v ≠ k) : distOf (upd f k (some x)) v = distOf f v := by
  simp [distOf, upd, h]

theorem relaxOne_preserves {g : Graph} {src u : ℕ} {d : ℚ} {st : DijkstraState}
    {e : ℕ × ℚ} (hg : NonnegG g) (hInv : InvE g src (some u) st)
    (hu : u ∈ st.visited) (hDu : distOf st.dist u = ((d : ℚ) : WithTop ℚ))
    (hWu : Walk g src u d) (hadj : e ∈ adjOf g u) :
    InvE g src (some u) (relaxOne u d st e) ∧
    (relaxOne u d st e).visited = st.visited ∧
    (∀ v, distOf (relaxOne u d st e).dist v ≤ distOf st.dist v) ∧
    (∀ v ∈ st.visited, distOf (relaxOne u d st e).dist v = distOf st.dist v) ∧
    distOf (relaxOne u d st e).dist e.1 ≤ (((d + e.2 : ℚ)) : WithTop ℚ) ∧
    (relaxOne u d st e).pq.length ≤ st.pq.length + 1 := by
  by_cases h : (((d + e.2 : ℚ)) : WithTop ℚ) < distOf st.dist e.1
  case neg =>
    have heq : relaxOne u d st e = st := by
      unfold relaxOne
      exact if_neg h
    rw [heq]
    exact ⟨hInv, rfl, fun v => le_refl _, fun v _ => rfl, not_lt.mp h, Nat.le_succ _⟩
  case pos =>
    have hwalk : Walk g src e.1 (d + e.2) := by
      have : (e.1, e.2) ∈ adjOf g u := by simpa using hadj
      exact walk_snoc hWu this
    have hv₀ : e.1 ∉ st.visited := by
      intro hmem
      exact absurd (hInv.visited_min e.1 hmem (d + e.2) hwalk) (not_le.mpr h)
    have hne_u : u ≠ e.1 := fun hh => hv₀ (hh ▸ hu)
    have hnd_nonneg : (0 : ℚ) ≤ d + e.2 :=
      add_nonneg (walk_cost_nonneg hg hWu) (nonneg_adj hg hadj)
    have hne_src : e.1 ≠ src := by
      intro hh
      rw [hh, hInv.src_zero] at h
      exact absurd h (not_lt.mpr (by exact_mod_cast hnd_nonneg))
    have heq : relaxOne u d st e =
        { st with dist := upd st.dist e.1 (some (((d + e.2 : ℚ)) : WithTop ℚ))
                , prev := upd st.prev e.1 (some u)
                , pq := st.pq ++ [(d + e.2, e.1)] } := by
      unfold relaxOne
      exact if_pos h
    rw [heq]
    have hD_self : distOf (upd st.dist e.1 (some (((d + e.2 : ℚ)) : WithTop ℚ))) e.1 =
        (((d + e.2 : ℚ)) : WithTop ℚ) := distOf_upd_self _ _ _
    have hD_ne : ∀ {v : ℕ}, v ≠ e.1 →
        distOf (upd st.dist e.1 (some (((d + e.2 : ℚ)) : WithTop ℚ))) v =
          distOf st.dist v := fun hv => distOf_upd_ne _ _ _ hv
    have hD_le : ∀ v, distOf (upd st.dist e.1 (some (((d + e.2 : ℚ)) : WithTop ℚ))) v ≤
        distOf st.dist v := by
      intro v
      by_cases hv : v = e.1
      · subst hv
        rw [hD_self]
        exact h.le
      · rw [hD_ne hv]
    refine ⟨?_, rfl, hD_le, ?_, ?_, ?_⟩
    case refine_2 =>
      intro v hvmem
      exact hD_ne (fun hh => hv₀ (hh ▸ hvmem))
    case refine_3 =>
      dsimp only
      rw [hD_self]
    case refine_4 =>
      simp
    constructor
    all_goals dsimp only
    case dist_sound =>
      intro v c hc
      by_cases hv : v = e.1
      · subst hv
        rw [hD_self] at hc
        have : d + e.2 = c := by exact_mod_cast hc
        exact this ▸ hwalk
      · exact hInv.dist_sound v c ((hD_ne hv) ▸ hc)
    case pq_walk =>
      intro p hp
      rcases List.mem_append.mp hp with hp | hp
      · exact hInv.pq_walk p hp
      · simp only [List.mem_singleton] at hp
        subst hp
        exact hwalk
    case pq_ge =>
      intro p hp
      rcases List.mem_append.mp hp with hp | hp
      · exact le_trans (hD_le p.2) (hInv.pq_ge p hp)
      · simp only [List.mem_singleton] at hp
        subst hp
        rw [hD_self]
    case pq_sub =>
      intro p hp
      rcases List.mem_append.mp hp with hp | hp
      · exact hInv.pq_sub p hp
      · simp only [List.mem_singleton] at hp
        subst hp
        refine Or.inr ⟨u, adjOf_key (fun hnil => by simp [hnil] at hadj), ?_⟩
        exact List.mem_map.mpr ⟨e, hadj, rfl⟩
    case visited_min =>
      intro x hx c hc
      rw [hD_ne (fun hh => hv₀ (hh ▸ hx))]
      exact hInv.visited_min x hx c hc
    case visited_fin =>
      intro x hx
      rw [hD_ne (fun hh => hv₀ (hh ▸ hx))]
      exact hInv.visited_fin x hx
    case visited_sub => exact hInv.visited_sub
    case visited_nodup => exact hInv.visited_nodup
    case relaxed =>
      intro x hx hxu e' he'
      have hxne : x ≠ e.1 := fun hh => hv₀ (hh ▸ hx)
      rw [hD_ne hxne]
      by_cases hv : e'.1 = e.1
      · rw [hv, hD_self]
        exact le_trans h.le (hv ▸ hInv.relaxed x hx hxu e' he')
      · rw [hD_ne hv]
        exact hInv.relaxed x hx hxu e' he'
    case fresh =>
      intro v hv c hc
      by_cases hveq : v = e.1
      · subst hveq
        rw [hD_self] at hc
        have : d + e.2 = c := by exact_mod_cast hc
        subst this
        exact List.mem_append.mpr (Or.inr (by simp))
      · rw [hD_ne hveq] at hc
        exact List.mem_append.mpr (Or.inl (hInv.fresh v hv c hc))
    case src_zero =>
      rw [hD_ne (fun hh : src = e.1 => hne_src hh.symm)]
      exact hInv.src_zero
    case prev_visited =>
      intro v x hvx
      by_cases hveq : v = e.1
      · subst hveq
        rw [upd_self] at hvx
        obtain rfl : u = x := by simpa using hvx
        exact hu
      · rw [upd_ne _ _ _ hveq] at hvx
        exact hInv.prev_visited v x hvx
    case prev_edge =>
      intro v x hvx
      by_cases hveq : v = e.1
      · subst hveq
        rw [upd_self] at hvx
        obtain rfl : u = x := by simpa using hvx
        refine ⟨e.2, by simpa using hadj, ?_⟩
        rw [hD_self, hD_ne hne_u, hDu]
        push_cast
        rfl
      · rw [upd_ne _ _ _ hveq] at hvx
        obtain ⟨w, hw, hweq⟩ := hInv.prev_edge v x hvx
        have hxvis := hInv.prev_visited v x hvx
        refine ⟨w, hw, ?_⟩
        rw [hD_ne hveq, hD_ne (fun hh => hv₀ (hh ▸ hxvis))]
        exact hweq
    case prev_order =>
      intro v x hvx hvmem
      have hveq : v ≠ e.1 := fun hh => hv₀ (hh ▸ hvmem)
      rw [upd_ne _ _ _ hveq] at hvx
      exact hInv.prev_order v x hvx hvmem
    case prev_src =>
      rw [upd_ne _ _ _ (fun hh : src = e.1 => hne_src hh.symm)]
      exact hInv.prev_src
    case prev_some =>
      intro v hvsrc c hc
      by_cases hveq : v = e.1
      · subst hveq
        exact ⟨u, upd_self _ _ _⟩
      · rw [hD_ne hveq] at hc
        obtain ⟨x, hx⟩ := hInv.prev_some v hvsrc c hc
        exact ⟨x, by rw [upd_ne _ _ _ hveq]; exact hx⟩

/-! ## The crossing argument: every walk to an unsettled vertex is covered
by a queue entry -/

theorem distOf_ne_top {f : ℕ → Option (WithTop ℚ)} {v : ℕ}
    (h : distOf f v ≠ ⊤) : ∃ c : ℚ, distOf f v = ((c : ℚ) : WithTop ℚ) := by
  cases hd : distOf f v with
  | top => exact absurd hd h
  | coe c => exact ⟨c, rfl⟩

theorem frontier_path {g : Graph} {src : ℕ} {st : DijkstraState}
    (hg : NonnegG g) (hInv : Inv g src st) :
    ∀ {x v : ℕ} {c : ℚ}, Walk g x v c → x ∈ st.visited → v ∉ st.visited →
    ∃ p ∈ st.pq, ((p.1 : ℚ) : WithTop ℚ) ≤ distOf st.dist x + ((c : ℚ) : WithTop ℚ) := by
  intro x v c hwalk
  induction hwalk with
  | nil y =>
    intro hy hny
    exact absurd hy hny
  | @cons a b t w cw he hw ih =>
    intro ha ht
    have hrel : distOf st.dist b ≤ distOf st.dist a + ((w : ℚ) : WithTop ℚ) :=
      hInv.relaxed a ha (Option.some_ne_none a) (b, w) he
    by_cases hb : b ∈ st.visited
    · obtain ⟨p, hp, hple⟩ := ih hb ht
      refine ⟨p, hp, hple.trans ?_⟩
      calc distOf st.dist b + ((cw : ℚ) : WithTop ℚ)
          ≤ (distOf st.dist a + ((w : ℚ) : WithTop ℚ)) + ((cw : ℚ) : WithTop ℚ) :=
            add_le_add_right hrel _
        _ = distOf st.dist a + (((w + cw : ℚ)) : WithTop ℚ) := by
            push_cast
            rw [add_assoc]
    · obtain ⟨da, hda⟩ := distOf_ne_top (hInv.visited_fin a ha)
      have hbfin : distOf st.dist b ≠ ⊤ := by
        intro htop
        rw [htop, hda] at hrel
        exact absurd hrel (by simp [← WithTop.coe_add])
      obtain ⟨db, hdb⟩ := distOf_ne_top hbfin
      refine ⟨(db, b), hInv.fresh b hb db hdb, ?_⟩
      have hc : (0 : ℚ) ≤ cw := walk_cost_nonneg hg hw
      calc ((db : ℚ) : WithTop ℚ) = distOf st.dist b := hdb.symm
        _ ≤ distOf st.dist a + ((w : ℚ) : WithTop ℚ) := hrel
        _ ≤ distOf st.dist a + (((w + cw : ℚ)) : WithTop ℚ) := by
            apply add_le_add_left
            exact_mod_cast le_add_of_nonneg_right hc

theorem cover {g : Graph} {src : ℕ} {st : DijkstraState}
    (hg : NonnegG g) (hInv : Inv g src st) :
    ∀ {v : ℕ} {c : ℚ}, Walk g src v c → v ∉ st.visited →
    ∃ p ∈ st.pq, p.1 ≤ c := by
  intro v c hwalk hv
  by_cases hs : src ∈ st.visited
  · obtain ⟨p, hp, hple⟩ := frontier_path hg hInv hwalk hs hv
    refine ⟨p, hp, ?_⟩
    rw [hInv.src_zero, zero_add] at hple
    exact_mod_cast hple
  · refine ⟨((0 : ℚ), src), hInv.fresh src hs 0 (by rw [hInv.src_zero]; rfl), ?_⟩
    exact walk_cost_nonneg hg hwalk

/-! ## One loop iteration preserves the invariant and decreases the
potential -/

theorem sum_filter_vis_not_mem {f : ℕ → ℕ} (l vis : List ℕ) (u : ℕ) (hu : u ∉ l) :
    ((l.filter (fun x => decide (x ∉ vis ++ [u]))).map f).sum =
      ((l.filter (fun x => decide (x ∉ vis))).map f).sum := by
  congr 1
  congr 1
  apply List.filter_congr
  intro x hx
  have hxu : x ≠ u := fun hh => hu (hh ▸ hx)
  apply decide_eq_decide.mpr
  simp [List.mem_append, hxu]

theorem sum_filter_vis_mem (f : ℕ → ℕ) :
    ∀ (l : List ℕ), l.Nodup → ∀ (vis : List ℕ) (u : ℕ), u ∉ vis → u ∈ l →
    ((l.filter (fun x => decide (x ∉ vis ++ [u]))).map f).sum + f u =
      ((l.filter (fun x => decide (x ∉ vis))).map f).sum
  | [], _, vis, u => by simp
  | a :: l, hnd, vis, u => by
    intro hvis hmem
    have hndl : l.Nodup := hnd.of_cons
    rcases List.mem_cons.mp hmem with rfl | hmem
    · have hul : u ∉ l := (List.nodup_cons.mp hnd).1
      have e1 : List.filter (fun x => decide (x ∉ vis ++ [u])) (u :: l) =
          List.filter (fun x => decide (x ∉ vis ++ [u])) l :=
        List.filter_cons_of_neg (by simp)
      have e2 : List.filter (fun x => decide (x ∉ vis)) (u :: l) =
          u :: List.filter (fun x => decide (x ∉ vis)) l :=
        List.filter_cons_of_pos (by simpa using hvis)
      rw [e1, e2, List.map_cons, List.sum_cons, sum_filter_vis_not_mem l vis u hul]
      ring
    · have hau : a ≠ u := fun hh => (List.nodup_cons.mp hnd).1 (hh ▸ hmem)
      have hcond : (decide (a ∉ vis ++ [u])) = (decide (a ∉ vis)) := by
        apply decide_eq_decide.mpr
        simp [List.mem_append, hau]
      have ih := sum_filter_vis_mem f l hndl vis u hvis hmem
      cases hd : decide (a ∉ vis) with
      | false =>
        have e1 : List.filter (fun x => decide (x ∉ vis ++ [u])) (a :: l) =
            List.filter (fun x => decide (x ∉ vis ++ [u])) l :=
          List.filter_cons_of_neg (by rw [hcond, hd]; exact Bool.false_ne_true)
        have e2 : List.filter (fun x => decide (x ∉ vis)) (a :: l) =
            List.filter (fun x => decide (x ∉ vis)) l :=
          List.filter_cons_of_neg (by rw [hd]; exact Bool.false_ne_true)
        rw [e1, e2]
        exact ih
      | true =>
        have e1 : List.filter (fun x => decide (x ∉ vis ++ [u])) (a :: l) =
            a :: List.filter (fun x => decide (x ∉ vis ++ [u])) l :=
          List.filter_cons_of_pos (by rw [hcond, hd])
        have e2 : List.filter (fun x => decide (x ∉ vis)) (a :: l) =
            a :: List.filter (fun x => decide (x ∉ vis)) l :=
          List.filter_cons_of_pos (by rw [hd])
        rw [e1, e2, List.map_cons, List.sum_cons, List.map_cons, List.sum_cons]
        omega

theorem foldl_relax {g : Graph} {src u : ℕ} {d : ℚ} (hg : NonnegG g) :
    ∀ (es : List (ℕ × ℚ)) (st : DijkstraState), (∀ e ∈ es, e ∈ adjOf g u) →
    InvE g src (some u) st → u ∈ st.visited →
    distOf st.dist u = ((d : ℚ) : WithTop ℚ) → Walk g src u d →
    InvE g src (some u) (es.foldl (relaxOne u d) st) ∧
    (es.foldl (relaxOne u d) st).visited = st.visited ∧
    (∀ v, distOf (es.foldl (relaxOne u d) st).dist v ≤ distOf st.dist v) ∧
    (∀ v ∈ st.visited, distOf (es.foldl (relaxOne u d) st).dist v = distOf st.dist v) ∧
    (∀ e ∈ es, distOf (es.foldl (relaxOne u d) st).dist e.1 ≤
      (((d + e.2 : ℚ)) : WithTop ℚ)) ∧
    (es.foldl (relaxOne u d) st).pq.length ≤ st.pq.length + es.length
  | [], st => by
    intro _ hInv _ _ _
    exact ⟨hInv, rfl, fun v => le_refl _, fun v _ => rfl, by simp, by simp⟩
  | e :: es, st => by
    intro hes hInv hu hDu hWu
    obtain ⟨hInv₁, hvis₁, hle₁, heq₁, hd₁, hpq₁⟩ :=
      relaxOne_preserves hg hInv hu hDu hWu (hes e (List.mem_cons_self e es))
    have hu₁ : u ∈ (relaxOne u d st e).visited := hvis₁ ▸ hu
    have hDu₁ : distOf (relaxOne u d st e).dist u = ((d : ℚ) : WithTop ℚ) :=
      (heq₁ u hu).trans hDu
    obtain ⟨ih1, ih2, ih3, ih4, ih5, ih6⟩ :=
      foldl_relax hg es (relaxOne u d st e) (fun e' he' => hes e' (List.mem_cons_of_mem e he'))
        hInv₁ hu₁ hDu₁ hWu
    rw [List.foldl_cons]
    refine ⟨ih1, ih2.trans hvis₁, ?_, ?_, ?_, ?_⟩
    · exact fun v => (ih3 v).trans (hle₁ v)
    · intro v hv
      exact (ih4 v (hvis₁ ▸ hv)).trans (heq₁ v hv)
    · intro e' he'
      rcases List.mem_cons.mp he' with rfl | he'
      · exact (ih3 e'.1).trans hd₁
      · exact ih5 e' he'
    · calc (es.foldl (relaxOne u d) (relaxOne u d st e)).pq.length
          ≤ (relaxOne u d st e).pq.length + es.length := ih6
        _ ≤ st.pq.length + 1 + es.length := by omega
        _ = st.pq.length + (e :: es).length := by
            simp only [List.length_cons]
            omega

theorem dijkstraStep_preserves {g : Graph} {src : ℕ} {st : DijkstraState}
    (hg : NonnegG g) (hInv : Inv g src st) (hne : st.pq ≠ []) :
    Inv g src (dijkstraStep g st) ∧ potential g (dijkstraStep g st) < potential g st := by
  cases hpop : popMin st.pq with
  | none => exact absurd (popMin_eq_none.mp hpop) hne
  | some pr =>
    obtain ⟨⟨d, u⟩, rest⟩ := pr
    have hperm := popMin_perm hpop
    have hlen : st.pq.length = rest.length + 1 := by
      simpa using hperm.length_eq
    have hmem : ((d, u) : ℚ × ℕ) ∈ st.pq :=
      hperm.symm.subset (List.mem_cons_self _ _)
    have hrest_sub : ∀ p ∈ rest, p ∈ st.pq :=
      fun p hp => hperm.symm.subset (List.mem_cons_of_mem _ hp)
    have hstep : dijkstraStep g st =
        if u ∈ st.visited then { st with pq := rest }
        else processVertex g u d { st with pq := rest } := by
      unfold dijkstraStep
      rw [hpop]
    by_cases hu : u ∈ st.visited
    case pos =>
      rw [hstep, if_pos hu]
      constructor
      · constructor
        case dist_sound => exact hInv.dist_sound
        case pq_walk => exact fun p hp => hInv.pq_walk p (hrest_sub p hp)
        case pq_ge => exact fun p hp => hInv.pq_ge p (hrest_sub p hp)
        case pq_sub => exact fun p hp => hInv.pq_sub p (hrest_sub p hp)
        case visited_min => exact hInv.visited_min
        case visited_fin => exact hInv.visited_fin
        case visited_sub => exact hInv.visited_sub
        case visited_nodup => exact hInv.visited_nodup
        case relaxed => exact hInv.relaxed
        case fresh =>
          intro v hv c hc
          have hin := hInv.fresh v hv c hc
          rcases List.mem_cons.mp (hperm.subset hin) with heq | hin'
          · have hvu : v = u := congrArg Prod.snd heq
            exact absurd (hvu ▸ hu) hv
          · exact hin'
        case src_zero => exact hInv.src_zero
        case prev_visited => exact hInv.prev_visited
        case prev_edge => exact hInv.prev_edge
        case prev_order => exact hInv.prev_order
        case prev_src => exact hInv.prev_src
        case prev_some => exact hInv.prev_some
      · simp only [potential]
        omega
    case neg =>
      rw [hstep, if_neg hu]
      -- the popped entry carries the exact tentative distance of `u`
      have hwalk : Walk g src u d := hInv.pq_walk (d, u) hmem
      have hge : distOf st.dist u ≤ ((d : ℚ) : WithTop ℚ) := hInv.pq_ge (d, u) hmem
      obtain ⟨cu, hcu⟩ := distOf_ne_top (fun htop => by
        rw [htop] at hge
        exact absurd hge (by simp))
      have hfreshu := hInv.fresh u hu cu hcu
      have hdcu : d = cu := by
        have h1 : d ≤ cu := pqLe_fst (popMin_min hpop (cu, u) hfreshu)
        have h2 : cu ≤ d := by
          rw [hcu] at hge
          exact_mod_cast hge
        exact le_antisymm h1 h2
      have hDu : distOf st.dist u = ((d : ℚ) : WithTop ℚ) := by rw [hcu, hdcu]
      have hmin : ∀ c : ℚ, Walk g src u c → d ≤ c := by
        intro c hw
        obtain ⟨p, hp, hple⟩ := cover hg hInv hw hu
        exact (pqLe_fst (popMin_min hpop p hp)).trans hple
      have hproc : processVertex g u d { st with pq := rest } =
          (adjOf g u).foldl (relaxOne u d)
            { st with pq := rest, visited := st.visited ++ [u] } := rfl
      have hInv₁ : InvE g src (some u) { st with pq := rest, visited := st.visited ++ [u] } := by
        constructor
        all_goals dsimp only
        case dist_sound => exact hInv.dist_sound
        case pq_walk => exact fun p hp => hInv.pq_walk p (hrest_sub p hp)
        case pq_ge => exact fun p hp => hInv.pq_ge p (hrest_sub p hp)
        case pq_sub => exact fun p hp => hInv.pq_sub p (hrest_sub p hp)
        case visited_min =>
          intro x hx c hw
          rcases List.mem_append.mp hx with hx | hx
          · exact hInv.visited_min x hx c hw
          · obtain rfl : x = u := List.mem_singleton.mp hx
            rw [hDu]
            exact_mod_cast hmin c hw
        case visited_fin =>
          intro x hx
          rcases List.mem_append.mp hx with hx | hx
          · exact hInv.visited_fin x hx
          · obtain rfl : x = u := List.mem_singleton.mp hx
            rw [hDu]
            exact WithTop.coe_ne_top
        case visited_sub =>
          intro x hx
          rcases List.mem_append.mp hx with hx | hx
          · exact hInv.visited_sub x hx
          · obtain rfl : x = u := List.mem_singleton.mp hx
            exact hInv.pq_sub _ hmem
        case visited_nodup =>
          rw [List.nodup_append]
          exact ⟨hInv.visited_nodup, List.nodup_singleton u,
            fun x hx hx' => hu ((List.mem_singleton.mp hx') ▸ hx)⟩
        case relaxed =>
          intro x hx hxu e he
          rcases List.mem_append.mp hx with hx | hx
          · exact hInv.relaxed x hx (Option.some_ne_none x) e he
          · exact absurd (congrArg some (List.mem_singleton.mp hx)) hxu
        case fresh =>
          intro v hv c hc
          have hv' : v ∉ st.visited := fun hh => hv (List.mem_append_left _ hh)
          have hvu : v ≠ u := fun hh => hv (by
            rw [hh]
            exact List.mem_append_right _ (List.mem_singleton_self u))
          rcases List.mem_cons.mp (hperm.subset (hInv.fresh v hv' c hc)) with heq | hin'
          · exact absurd (congrArg Prod.snd heq) hvu
          · exact hin'
        case src_zero => exact hInv.src_zero
        case prev_visited =>
          exact fun v x hvx => List.mem_append_left _ (hInv.prev_visited v x hvx)
        case prev_edge => exact hInv.prev_edge
        case prev_order =>
          intro v x hvx hvmem
          have hx : x ∈ st.visited := hInv.prev_visited v x hvx
          rw [List.indexOf_append_of_mem hx]
          rcases List.mem_append.mp hvmem with hv | hv
          · rw [List.indexOf_append_of_mem hv]
            exact hInv.prev_order v x hvx hv
          · obtain rfl : v = u := List.mem_singleton.mp hv
            rw [List.indexOf_append_of_not_mem hu]
            have := List.indexOf_lt_length.mpr hx
            simp only [List.indexOf_cons_self]
            omega
        case prev_src => exact hInv.prev_src
        case prev_some => exact hInv.prev_some
      have hu₁ : u ∈ ({ st with pq := rest, visited := st.visited ++ [u] } : DijkstraState).visited := by
        simp
      have hDu₁ : distOf ({ st with pq := rest, visited := st.visited ++ [u] } : DijkstraState).dist u =
          ((d : ℚ) : WithTop ℚ) := hDu
      obtain ⟨E, hvisE, hleE, heqE, hboundE, hpqE⟩ :=
        foldl_relax hg (adjOf g u) { st with pq := rest, visited := st.visited ++ [u] }
          (fun e he => he) hInv₁ hu₁ hDu₁ hwalk
      rw [hproc]
      have hDfu : distOf ((adjOf g u).foldl (relaxOne u d)
          { st with pq := rest, visited := st.visited ++ [u] }).dist u =
          ((d : ℚ) : WithTop ℚ) := (heqE u hu₁).trans hDu₁
      constructor
      · constructor
        case dist_sound => exact E.dist_sound
        case pq_walk => exact E.pq_walk
        case pq_ge => exact E.pq_ge
        case pq_sub => exact E.pq_sub
        case visited_min => exact E.visited_min
        case visited_fin => exact E.visited_fin
        case visited_sub => exact E.visited_sub
        case visited_nodup => exact E.visited_nodup
        case relaxed =>
          intro x hx _ e he
          by_cases hxu : x = u
          · subst hxu
            rw [hDfu]
            refine (hboundE e he).trans ?_
            rw [← WithTop.coe_add]
          · exact E.relaxed x hx (by simpa using hxu) e he
        case fresh => exact E.fresh
        case src_zero => exact E.src_zero
        case prev_visited => exact E.prev_visited
        case prev_edge => exact E.prev_edge
        case prev_order => exact E.prev_order
        case prev_src => exact E.prev_src
        case prev_some => exact E.prev_some
      · -- the potential strictly decreases
        simp only [potential, hvisE]
        by_cases hk : u ∈ keys g
        · have hsum : ((((keys g).dedup.filter (fun x => decide (x ∉ st.visited ++ [u]))).map
                (fun x => 1 + (adjOf g x).length)).sum) + (1 + (adjOf g u).length) =
              (((keys g).dedup.filter (fun x => decide (x ∉ st.visited))).map
                (fun x => 1 + (adjOf g x).length)).sum :=
            sum_filter_vis_mem (fun x => 1 + (adjOf g x).length)
              (keys g).dedup (List.nodup_dedup _) st.visited u hu (List.mem_dedup.mpr hk)
          have hpq' : ((adjOf g u).foldl (relaxOne u d)
              { st with pq := rest, visited := st.visited ++ [u] }).pq.length ≤
              rest.length + (adjOf g u).length := hpqE
          omega
        · have hadj0 : (adjOf g u).length = 0 := by rw [adjOf_not_key hk]; rfl
          have hsum := sum_filter_vis_not_mem (f := fun x => 1 + (adjOf g x).length)
            (keys g).dedup st.visited u (fun hh => hk (List.mem_dedup.mp hh))
          have hpq' : ((adjOf g u).foldl (relaxOne u d)
              { st with pq := rest, visited := st.visited ++ [u] }).pq.length ≤
              rest.length + (adjOf g u).length := hpqE
          omega

/-! ## The loop drains the queue while keeping the invariant -/

theorem initState_dist {g : Graph} {src v : ℕ} :
    distOf (initState g src).dist v =
      if v = src then ((0 : ℚ) : WithTop ℚ) else ⊤ := by
  by_cases hv : v = src
  · subst hv
    simp [initState, distOf, upd]
  · simp only [initState, distOf, upd, if_neg hv]
    by_cases hk : v ∈ keys g <;> simp [hk]

theorem initState_inv (g : Graph) (src : ℕ) : Inv g src (initState g src) := by
  constructor
  case dist_sound =>
    intro v c hc
    rw [initState_dist] at hc
    by_cases hv : v = src
    · subst hv
      rw [if_pos rfl] at hc
      obtain rfl : (0 : ℚ) = c := by exact_mod_cast hc
      exact Walk.nil _
    · rw [if_neg hv] at hc
      exact absurd hc.symm WithTop.coe_ne_top
  case pq_walk =>
    intro p hp
    obtain rfl : p = ((0 : ℚ), src) := List.mem_singleton.mp hp
    exact Walk.nil src
  case pq_ge =>
    intro p hp
    obtain rfl : p = ((0 : ℚ), src) := List.mem_singleton.mp hp
    rw [initState_dist, if_pos rfl]
  case pq_sub =>
    intro p hp
    obtain rfl : p = ((0 : ℚ), src) := List.mem_singleton.mp hp
    exact Or.inl rfl
  case visited_min => intro u hu; exact absurd hu (List.not_mem_nil u)
  case visited_fin => intro u hu; exact absurd hu (List.not_mem_nil u)
  case visited_sub => intro u hu; exact absurd hu (List.not_mem_nil u)
  case visited_nodup => exact List.nodup_nil
  case relaxed => intro u hu; exact absurd hu (List.not_mem_nil u)
  case fresh =>
    intro v _ c hc
    rw [initState_dist] at hc
    by_cases hv : v = src
    · subst hv
      rw [if_pos rfl] at hc
      obtain rfl : (0 : ℚ) = c := by exact_mod_cast hc
      exact List.mem_singleton_self _
    · rw [if_neg hv] at hc
      exact absurd hc.symm WithTop.coe_ne_top
  case src_zero => rw [initState_dist, if_pos rfl]; rfl
  case prev_visited =>
    intro v u hvu
    exact absurd hvu (by simp [initState])
  case prev_edge =>
    intro v u hvu
    exact absurd hvu (by simp [initState])
  case prev_order =>
    intro v u hvu
    exact absurd hvu (by simp [initState])
  case prev_src => rfl
  case prev_some =>
    intro v hv c hc
    rw [initState_dist, if_neg hv] at hc
    exact absurd hc.symm WithTop.coe_ne_top

theorem initState_potential (g : Graph) (src : ℕ) :
    potential g (initState g src) = dijkstraFuel g := by
  simp only [potential, initState, dijkstraFuel]
  have hfil : (keys g).dedup.filter (fun u => decide (u ∉ ([] : List ℕ))) =
      (keys g).dedup :=
    List.filter_eq_self.mpr (fun x _ => by simp)
  rw [hfil]
  rfl

theorem dijkstraLoop_drains {g : Graph} {src : ℕ} (hg : NonnegG g) :
    ∀ (fuel : ℕ) (st : DijkstraState), Inv g src st → potential g st ≤ fuel →
    Inv g src (dijkstraLoop g fuel st) ∧ (dijkstraLoop g fuel st).pq = []
  | 0, st => by
    intro hInv hpot
    have hlen : st.pq.length = 0 := by
      have : st.pq.length ≤ potential g st := Nat.le_add_right _ _
      omega
    exact ⟨hInv, List.length_eq_zero.mp hlen⟩
  | fuel + 1, st => by
    intro hInv hpot
    by_cases hne : st.pq = []
    · rw [dijkstraLoop, if_pos hne]
      exact ⟨hInv, hne⟩
    · rw [dijkstraLoop, if_neg hne]
      obtain ⟨hInv', hdec⟩ := dijkstraStep_preserves hg hInv hne
      exact dijkstraLoop_drains hg fuel (dijkstraStep g st) hInv' (by omega)

theorem finalState_spec {g : Graph} {src : ℕ} (hg : NonnegG g) :
    Inv g src (finalState g src) ∧ (finalState g src).pq = [] :=
  dijkstraLoop_drains hg (dijkstraFuel g) (initState g src)
    (initState_inv g src) (le_of_eq (initState_potential g src))

/-! ## Consequences at the drained final state -/

theorem final_min {g : Graph} {src : ℕ} (hg : NonnegG g) {v : ℕ} {c : ℚ}
    (hw : Walk g src v c) :
    distOf (finalState g src).dist v ≤ ((c : ℚ) : WithTop ℚ) := by
  obtain ⟨hInv, hpq⟩ := @finalState_spec g src hg
  by_cases hv : v ∈ (finalState g src).visited
  · exact hInv.visited_min v hv c hw
  · obtain ⟨p, hp, _⟩ := cover hg hInv hw hv
    rw [hpq] at hp
    exact absurd hp (List.not_mem_nil p)

theorem final_visited {g : Graph} {src : ℕ} (hg : NonnegG g) {v : ℕ}
    (hfin : distOf (finalState g src).dist v ≠ ⊤) :
    v ∈ (finalState g src).visited := by
  obtain ⟨hInv, hpq⟩ := @finalState_spec g src hg
  by_contra hv
  obtain ⟨c, hc⟩ := distOf_ne_top hfin
  have := hInv.fresh v hv c hc
  rw [hpq] at this
  exact absurd this (List.not_mem_nil _)

/-- C1: for every finite graph with non-negative edge weights and every
source vertex present in the graph, the distance map of `dijkstra` assigns
`0` to the source, is a lower bound on the cost of every walk from the
source, attains its every finite value by an actual walk (so it is the true
minimum), and is infinite exactly on the vertices with no walk from the
source. -/
theorem dijkstra_shortest_paths_correct (g : Graph) (src : ℕ)
    (hg : NonnegG g) (_hsrc : src ∈ keys g) :
    distOf (dijkstra g src).1 src = 0 ∧
    (∀ (v : ℕ) (c : ℚ), Walk g src v c →
      distOf (dijkstra g src).1 v ≤ ((c : ℚ) : WithTop ℚ)) ∧
    (∀ v : ℕ, distOf (dijkstra g src).1 v ≠ ⊤ →
      ∃ c : ℚ, Walk g src v c ∧ distOf (dijkstra g src).1 v = ((c : ℚ) : WithTop ℚ)) ∧
    (∀ v : ℕ, distOf (dijkstra g src).1 v = ⊤ → ∀ c : ℚ, ¬ Walk g src v c) := by
  obtain ⟨hInv, hpq⟩ := @finalState_spec g src hg
  refine ⟨hInv.src_zero, fun v c hw => final_min hg hw, ?_, ?_⟩
  · intro v hfin
    obtain ⟨c, hc⟩ := distOf_ne_top hfin
    exact ⟨c, hInv.dist_sound v c hc, hc⟩
  · intro v htop c hw
    have hle : distOf (dijkstra g src).1 v ≤ ((c : ℚ) : WithTop ℚ) := final_min hg hw
    rw [htop] at hle
    exact absurd (top_le_iff.mp hle) WithTop.coe_ne_top

/-- C1 witness: the two-vertex graph `{0: [(1, 2)], 1: []}` with source `0`
satisfies the hypotheses, so its distance map is the true shortest-path
map. -/
theorem dijkstra_shortest_paths_correct_witness :
    distOf (dijkstra [(0, [(1, 2)]), (1, [])] 0).1 0 = 0 ∧
    (∀ (v : ℕ) (c : ℚ), Walk [(0, [(1, 2)]), (1, [])] 0 v c →
      distOf (dijkstra [(0, [(1, 2)]), (1, [])] 0).1 v ≤ ((c : ℚ) : WithTop ℚ)) ∧
    (∀ v : ℕ, distOf (dijkstra [(0, [(1, 2)]), (1, [])] 0).1 v ≠ ⊤ →
      ∃ c : ℚ, Walk [(0, [(1, 2)]), (1, [])] 0 v c ∧
        distOf (dijkstra [(0, [(1, 2)]), (1, [])] 0).1 v = ((c : ℚ) : WithTop ℚ)) ∧
    (∀ v : ℕ, distOf (dijkstra [(0, [(1, 2)]), (1, [])] 0).1 v = ⊤ →
      ∀ c : ℚ, ¬ Walk [(0, [(1, 2)]), (1, [])] 0 v c) :=
  dijkstra_shortest_paths_correct [(0, [(1, 2)]), (1, [])] 0
    (by decide) (by decide)

/-! ## The predecessor chain: reconstruction lemmas (C8, C5) -/

theorem alookup_of_mem_nodup {α : Type} :
    ∀ {l : List (ℕ × α)}, (l.map Prod.fst).Nodup → ∀ {k : ℕ} {v : α},
    (k, v) ∈ l → alookup l k = some v
  | [], _, _, _, h => absurd h (List.not_mem_nil _)
  | p :: l, hnd, k, v, h => by
    by_cases hpk : p.1 = k
    · have hvp : p = (k, v) := by
        rcases List.mem_cons.mp h with h | h
        · exact h.symm
        · exfalso
          have : k ∈ l.map Prod.fst := List.mem_map.mpr ⟨(k, v), h, rfl⟩
          rw [List.map_cons, List.nodup_cons] at hnd
          exact hnd.1 (hpk ▸ this)
      simp [alookup, List.find?_cons, hpk, hvp]
    · have hnd' : (l.map Prod.fst).Nodup := by
        rw [List.map_cons, List.nodup_cons] at hnd
        exact hnd.2
      have hmem : (k, v) ∈ l := by
        rcases List.mem_cons.mp h with h | h
        · exact absurd (congrArg Prod.fst h.symm) hpk
        · exact h
      have ih := alookup_of_mem_nodup hnd' hmem
      simp only [alookup, List.find?_cons] at ih ⊢
      rw [show (p.1 == k) = false from beq_eq_false_iff_ne.mpr hpk]
      exact ih

theorem ewT_of_mem {g : Graph} (hnp : NoParallel g) {u v : ℕ} {w : ℚ}
    (h : (v, w) ∈ adjOf g u) : ewT g u v = ((w : ℚ) : WithTop ℚ) := by
  have hnd : ((adjOf g u).map Prod.fst).Nodup := by
    cases hl : alookup g u with
    | none => simp [adjOf, hl]
    | some L =>
      have := hnp (u, L) (alookup_mem hl)
      simpa [adjOf, hl] using this
  simp [ewT, edgeW, alookup_of_mem_nodup hnd h]

theorem reconstructAux_head (p : ℕ → Option ℕ) :
    ∀ (fuel : ℕ) (cur : ℕ), (reconstructAux p fuel cur).head? = some cur
  | 0, cur => rfl
  | fuel + 1, cur => by
    simp only [reconstructAux]
    cases p cur with
    | none => rfl
    | some nxt => rfl

theorem reconstructAux_ne_nil (p : ℕ → Option ℕ) (fuel : ℕ) (cur : ℕ) :
    reconstructAux p fuel cur ≠ [] := by
  intro h
  have := reconstructAux_head p fuel cur
  rw [h] at this
  exact absurd this (by simp)

theorem getLast?_cons_cons (x y : ℕ) (t : List ℕ) :
    (x :: y :: t).getLast? = (y :: t).getLast? := rfl

theorem pathCost_append_last (g : Graph) :
    ∀ (l : List ℕ) (u v : ℕ), l.getLast? = some u →
    pathCost g (l ++ [v]) = pathCost g l + ewT g u v
  | [], u, v => by intro h; exact absurd h (by simp)
  | [x], u, v => by
    intro h
    obtain rfl : x = u := by simpa using h
    simp [pathCost]
  | x :: y :: t, u, v => by
    intro h
    rw [getLast?_cons_cons] at h
    have ih := pathCost_append_last g (y :: t) u v h
    show pathCost g (x :: ((y :: t) ++ [v])) = pathCost g (x :: y :: t) + ewT g u v
    have hunfold : pathCost g (x :: ((y :: t) ++ [v])) =
        ewT g x y + pathCost g ((y :: t) ++ [v]) := rfl
    rw [hunfold, ih, ← add_assoc]
    rfl

theorem visited_length_le {g : Graph} {src : ℕ} {st : DijkstraState}
    (hInv : Inv g src st) : st.visited.length ≤ dijkstraFuel g := by
  have hsub : st.visited ⊆
      src :: (keys g).dedup.flatMap (fun u => (adjOf g u).map Prod.fst) := by
    intro x hx
    rcases hInv.visited_sub x hx with rfl | ⟨y, hy, hmem⟩
    · exact List.mem_cons_self _ _
    · exact List.mem_cons_of_mem _
        (List.mem_flatMap.mpr ⟨y, List.mem_dedup.mpr hy, hmem⟩)
  have hlen := (List.subperm_of_subset hInv.visited_nodup hsub).length_le
  have hflat : ((keys g).dedup.flatMap (fun u => (adjOf g u).map Prod.fst)).length =
      ((keys g).dedup.map (fun u => ((adjOf g u).map Prod.fst).length)).sum :=
    List.length_flatMap _ _
  have hmono : ((keys g).dedup.map (fun u => ((adjOf g u).map Prod.fst).length)).sum ≤
      ((keys g).dedup.map (fun u => 1 + (adjOf g u).length)).sum := by
    apply List.sum_le_sum
    intro i _
    simp
  simp only [List.length_cons, hflat] at hlen
  simp only [dijkstraFuel]
  omega

theorem final_chain {g : Graph} {src : ℕ} (hg : NonnegG g) :
    ∀ (n : ℕ) (v : ℕ) (c : ℚ),
    distOf (finalState g src).dist v = ((c : ℚ) : WithTop ℚ) →
    (finalState g src).visited.indexOf v = n →
    ∀ fuel : ℕ, n < fuel →
    (reconstructAux (finalState g src).prev fuel v).head? = some v ∧
    (reconstructAux (finalState g src).prev fuel v).getLast? = some src ∧
    List.Chain' (fun a b => a ≠ b) (reconstructAux (finalState g src).prev fuel v) ∧
    (NoParallel g →
      pathCost g (reconstructAux (finalState g src).prev fuel v).reverse =
        ((c : ℚ) : WithTop ℚ)) := by
  intro n
  induction n using Nat.strong_induction_on with
  | _ n ih =>
    intro v c hc hidx fuel hfuel
    obtain ⟨hInv, hpq⟩ := @finalState_spec g src hg
    obtain ⟨f, rfl⟩ : ∃ f, fuel = f + 1 := ⟨fuel - 1, by omega⟩
    by_cases hvsrc : v = src
    · have hprevnone : (finalState g src).prev v = none := by
        rw [hvsrc]
        exact hInv.prev_src
      have haux : reconstructAux (finalState g src).prev (f + 1) v = [v] := by
        simp [reconstructAux, hprevnone]
      rw [haux]
      have hczero : ((c : ℚ) : WithTop ℚ) = 0 := by
        rw [← hc, hvsrc, hInv.src_zero]
      refine ⟨rfl, by simp [hvsrc], List.chain'_singleton v, fun _ => ?_⟩
      rw [hczero]
      rfl
    · obtain ⟨u, hprev⟩ := hInv.prev_some v hvsrc c hc
      obtain ⟨w, hw, heq⟩ := hInv.prev_edge v u hprev
      have hufin : distOf (finalState g src).dist u ≠ ⊤ := by
        intro htop
        rw [htop, top_add] at heq
        exact absurd (hc ▸ heq : ((c : ℚ) : WithTop ℚ) = ⊤) WithTop.coe_ne_top
      obtain ⟨cu, hcu⟩ := distOf_ne_top hufin
      have hcsum : c = cu + w := by
        rw [hc, hcu, ← WithTop.coe_add] at heq
        exact_mod_cast heq
      have hvvis : v ∈ (finalState g src).visited :=
        final_visited hg (hc ▸ WithTop.coe_ne_top)
      have hord := hInv.prev_order v u hprev hvvis
      rw [hidx] at hord
      have hvu : v ≠ u := by
        intro hh
        rw [← hidx, hh] at hord
        exact lt_irrefl _ hord
      have haux : reconstructAux (finalState g src).prev (f + 1) v =
          v :: reconstructAux (finalState g src).prev f u := by
        simp [reconstructAux, hprev]
      have hf : (finalState g src).visited.indexOf u < f := by omega
      obtain ⟨ihh, ihl, ihc, ihw⟩ :=
        ih ((finalState g src).visited.indexOf u) hord u cu hcu rfl f hf
      rw [haux]
      refine ⟨rfl, ?_, ?_, ?_⟩
      · cases hL : reconstructAux (finalState g src).prev f u with
        | nil => exact absurd hL (reconstructAux_ne_nil _ _ _)
        | cons a as =>
          rw [hL] at ihl
          simp only [hL, getLast?_cons_cons]
          exact ihl
      · rw [List.chain'_cons']
        refine ⟨?_, ihc⟩
        intro y hy
        rw [reconstructAux_head] at hy
        obtain rfl : u = y := by simpa using hy
        exact hvu
      · intro hnp
        have hlastrev : (reconstructAux (finalState g src).prev f u).reverse.getLast? =
            some u := by
          rw [List.getLast?_reverse]
          exact reconstructAux_head _ _ _
        rw [List.reverse_cons, pathCost_append_last g _ u v hlastrev, ihw hnp,
          ewT_of_mem hnp hw, hcsum, ← WithTop.coe_add]

/-- C8: for every graph with non-negative weights and no parallel edges
(so that "the edge weight between two vertices" is well defined), every
source, and every target reachable from the source, reconstructing the
target's path from the predecessor map returned by `dijkstra` and summing
the graph's edge weights along its consecutive pairs yields exactly the
value the distance map assigns to the target. -/
theorem reconstruct_path_cost_roundtrip (g : Graph) (src t : ℕ) (hg : NonnegG g)
    (hnp : NoParallel g) (hreach : ∃ c : ℚ, Walk g src t c) :
    pathCost g (reconstruct_path (dijkstra g src).2 t (dijkstraFuel g)) =
      distOf (dijkstra g src).1 t := by
  obtain ⟨c0, hw⟩ := hreach
  have hfin : distOf (finalState g src).dist t ≠ ⊤ := by
    intro htop
    have hle := final_min hg hw
    rw [htop] at hle
    exact absurd (top_le_iff.mp hle) WithTop.coe_ne_top
  obtain ⟨c, hc⟩ := distOf_ne_top hfin
  obtain ⟨hInv, _⟩ := @finalState_spec g src hg
  have htvis : t ∈ (finalState g src).visited := final_visited hg hfin
  have hfuel : (finalState g src).visited.indexOf t < dijkstraFuel g :=
    lt_of_lt_of_le (List.indexOf_lt_length.mpr htvis) (visited_length_le hInv)
  obtain ⟨_, _, _, hcost⟩ := final_chain hg _ t c hc rfl (dijkstraFuel g) hfuel
  have hpc : pathCost g (reconstruct_path (dijkstra g src).2 t (dijkstraFuel g)) =
      ((c : ℚ) : WithTop ℚ) := hcost hnp
  rw [hpc]
  exact hc.symm

/-- C8 witness: the two-vertex graph `{0: [(1, 2)], 1: []}`, source `0`,
target `1`: the reconstructed path's summed weight is the mapped distance. -/
theorem reconstruct_path_cost_roundtrip_witness :
    pathCost [(0, [(1, 2)]), (1, [])]
        (reconstruct_path (dijkstra [(0, [(1, 2)]), (1, [])] 0).2 1
          (dijkstraFuel [(0, [(1, 2)]), (1, [])])) =
      distOf (dijkstra [(0, [(1, 2)]), (1, [])] 0).1 1 :=
  reconstruct_path_cost_roundtrip _ 0 1 (by decide) (by decide)
    ⟨2 + 0, Walk.cons (by decide) (Walk.nil 1)⟩

/-! ## The greedy multi-target loop (C2, C5) -/

theorem mem_of_getLast?_eq {l : List ℕ} {a : ℕ} (h : l.getLast? = some a) : a ∈ l := by
  obtain ⟨hne, heq⟩ :=
    List.mem_getLast?_eq_getLast (show a ∈ l.getLast? from h)
  rw [heq]
  exact List.getLast_mem hne

theorem minByAux_mem (f : ℕ → WithTop ℚ) :
    ∀ (best : ℕ) (l : List ℕ), minByAux f best l ∈ best :: l
  | best, [] => List.mem_singleton_self best
  | best, x :: xs => by
    simp only [minByAux]
    by_cases h : f x < f best
    · rw [if_pos h]
      rcases List.mem_cons.mp (minByAux_mem f x xs) with h' | h'
      · rw [h']
        exact List.mem_cons_of_mem _ (List.mem_cons_self _ _)
      · exact List.mem_cons_of_mem _ (List.mem_cons_of_mem _ h')
    · rw [if_neg h]
      rcases List.mem_cons.mp (minByAux_mem f best xs) with h' | h'
      · rw [h']
        exact List.mem_cons_self _ _
      · exact List.mem_cons_of_mem _ (List.mem_cons_of_mem _ h')

theorem reconstruct_head (p : ℕ → Option ℕ) (t fuel : ℕ) :
    (reconstruct_path p t fuel).getLast? = some t := by
  simp only [reconstruct_path, List.getLast?_reverse]
  exact reconstructAux_head p fuel t

theorem reconstruct_ne_nil (p : ℕ → Option ℕ) (t fuel : ℕ) :
    reconstruct_path p t fuel ≠ [] := by
  simp only [reconstruct_path]
  intro h
  exact reconstructAux_ne_nil p fuel t (by simpa using congrArg List.reverse h)

theorem target_mem_reconstruct (p : ℕ → Option ℕ) (t fuel : ℕ) :
    t ∈ reconstruct_path p t fuel :=
  mem_of_getLast?_eq (reconstruct_head p t fuel)

/-- One unrolling of the `while remaining:` loop of `compute_route`. -/
theorem routeLoop_cons (g : Graph) (fuel t : ℕ) (rest : List ℕ) (current : ℕ)
    (path : List ℕ) (total : WithTop ℚ) :
    routeLoop g (fuel + 1) (t :: rest) current path total =
      routeLoop g fuel
        ((t :: rest).erase (minByAux (fun v => distOf (dijkstra g current).1 v) t rest))
        (minByAux (fun v => distOf (dijkstra g current).1 v) t rest)
        (if path ≠ [] ∧
            reconstruct_path (dijkstra g current).2
              (minByAux (fun v => distOf (dijkstra g current).1 v) t rest)
              (dijkstraFuel g) ≠ [] ∧
            (reconstruct_path (dijkstra g current).2
              (minByAux (fun v => distOf (dijkstra g current).1 v) t rest)
              (dijkstraFuel g)).head? = path.getLast? then
          path ++ (reconstruct_path (dijkstra g current).2
            (minByAux (fun v => distOf (dijkstra g current).1 v) t rest)
            (dijkstraFuel g)).tail
        else
          path ++ reconstruct_path (dijkstra g current).2
            (minByAux (fun v => distOf (dijkstra g current).1 v) t rest)
            (dijkstraFuel g))
        (total + ((dijkstra g current).1
          (minByAux (fun v => distOf (dijkstra g current).1 v) t rest)).getD 0) := rfl

/-- One unrolling of the reachability check. -/
theorem selReachableF_cons (g : Graph) (fuel t : ℕ) (rest : List ℕ) (current : ℕ) :
    selReachableF g (fuel + 1) current (t :: rest) =
      (decide (distOf (dijkstra g current).1
          (minByAux (fun v => distOf (dijkstra g current).1 v) t rest) ≠ ⊤) &&
        selReachableF g fuel
          (minByAux (fun v => distOf (dijkstra g current).1 v) t rest)
          ((t :: rest).erase
            (minByAux (fun v => distOf (dijkstra g current).1 v) t rest))) := rfl

/-- The selected target always ends up in the accumulated path, and old path
elements are never removed: the membership core of C2. -/
theorem routeLoop_mem (g : Graph) :
    ∀ (fuel : ℕ) (remaining : List ℕ) (current : ℕ) (path : List ℕ)
      (total : WithTop ℚ) (t : ℕ),
    remaining.length ≤ fuel → (t ∈ remaining ∨ t ∈ path) →
    t ∈ (routeLoop g fuel remaining current path total).1
  | fuel, [], current, path, total, t => by
    intro _ hmem
    rcases hmem with hmem | hmem
    · exact absurd hmem (List.not_mem_nil t)
    · cases fuel <;> exact hmem
  | 0, r :: rest, current, path, total, t => by
    intro hlen _
    simp at hlen
  | fuel + 1, r :: rest, current, path, total, t => by
    intro hlen hmem
    rw [routeLoop_cons]
    set nearest := minByAux (fun v => distOf (dijkstra g current).1 v) r rest with hnear
    set segment := reconstruct_path (dijkstra g current).2 nearest (dijkstraFuel g)
      with hsegdef
    have hsegne : segment ≠ [] := reconstruct_ne_nil _ _ _
    have hseglast : segment.getLast? = some nearest := reconstruct_head _ _ _
    have hnmem : nearest ∈ r :: rest := minByAux_mem _ r rest
    have hlen' : ((r :: rest).erase nearest).length ≤ fuel := by
      rw [List.length_erase_of_mem hnmem]
      simpa using Nat.le_of_succ_le_succ (by simpa using hlen)
    set path' := if path ≠ [] ∧ segment ≠ [] ∧ segment.head? = path.getLast? then
        path ++ segment.tail else path ++ segment with hpath'
    have hpath_sub : ∀ x ∈ path, x ∈ path' := by
      intro x hx
      rw [hpath']
      split
      · exact List.mem_append_left _ hx
      · exact List.mem_append_left _ hx
    have hnear_mem : nearest ∈ path' := by
      rw [hpath']
      split
      case isTrue hcond =>
        obtain ⟨hpne, -, hhead⟩ := hcond
        cases hseg : segment with
        | nil => exact absurd hseg hsegne
        | cons s0 stail =>
          have hh : segment.head? = some s0 := by rw [hseg]; rfl
          have hp : path.getLast? = some s0 := by rw [← hhead, hh]
          have hs0path : s0 ∈ path := mem_of_getLast?_eq hp
          cases hst : stail with
          | nil =>
            have h1 := hseglast
            rw [hseg, hst] at h1
            have hs0n : s0 = nearest := by simpa using h1
            exact List.mem_append_left _ (hs0n ▸ hs0path)
          | cons s1 st2 =>
            have h1 := hseglast
            rw [hseg, hst, getLast?_cons_cons] at h1
            exact List.mem_append_right _ (mem_of_getLast?_eq h1)
      case isFalse =>
        exact List.mem_append_right _ (target_mem_reconstruct _ _ _)
    rcases hmem with hmem | hmem
    · by_cases ht : t = nearest
      · exact routeLoop_mem g fuel _ nearest path' _ t hlen' (Or.inr (ht ▸ hnear_mem))
      · have : t ∈ (r :: rest).erase nearest := (List.mem_erase_of_ne ht).mpr hmem
        exact routeLoop_mem g fuel _ nearest path' _ t hlen' (Or.inl this)
    · exact routeLoop_mem g fuel _ nearest path' _ t hlen' (Or.inr (hpath_sub t hmem))

/-! ## The real-weighted Dijkstra run of `compute_optimal_route`

Its queue is drained by `dijkstraFuelV` with no hypotheses at all — the
potential argument never looks at the edge weights — so `dijkstraV` equals
the Python run on every input, including negative-weight graphs. -/

theorem popMinV_eq_none {l : List (ℝ × VKey)} : popMinV l = none ↔ l = [] := by
  cases l with
  | nil => simp [popMinV]
  | cons x xs =>
    simp only [popMinV]
    cases popMinV xs with
    | none => simp
    | some m =>
      obtain ⟨m, rest⟩ := m
      by_cases h : pqLeV x m <;> simp [h]

theorem popMinV_perm : ∀ {l : List (ℝ × VKey)} {m : ℝ × VKey} {rest : List (ℝ × VKey)},
    popMinV l = some (m, rest) → l.Perm (m :: rest)
  | [], m, rest => by simp [popMinV]
  | x :: xs, m, rest => by
    simp only [popMinV]
    cases hxs : popMinV xs with
    | none =>
      intro h
      obtain rfl : xs = [] := popMinV_eq_none.mp hxs
      simp only [Option.some.injEq, Prod.mk.injEq] at h
      obtain ⟨rfl, rfl⟩ := h
      rfl
    | some p =>
      obtain ⟨m', rest'⟩ := p
      have ih := popMinV_perm hxs
      by_cases hle : pqLeV x m'
      · simp only [hle, if_pos, Option.some.injEq, Prod.mk.injEq]
        intro h
        obtain ⟨rfl, rfl⟩ := h
        rfl
      · simp only [hle, if_neg, not_false_iff, Option.some.injEq, Prod.mk.injEq]
        intro h
        obtain ⟨rfl, rfl⟩ := h
        exact (ih.cons x).trans (List.Perm.swap m' x rest')

theorem relaxOneV_shape (u : VKey) (d : ℝ) (st : DijkstraStateV) (e : VKey × ℝ) :
    (relaxOneV u d st e).visited = st.visited ∧
    (relaxOneV u d st e).pq.length ≤ st.pq.length + 1 := by
  simp only [relaxOneV]
  split
  · exact ⟨rfl, by simp⟩
  · exact ⟨rfl, Nat.le_succ _⟩

theorem foldl_relaxV_shape (u : VKey) (d : ℝ) :
    ∀ (es : List (VKey × ℝ)) (st : DijkstraStateV),
    (es.foldl (relaxOneV u d) st).visited = st.visited ∧
    (es.foldl (relaxOneV u d) st).pq.length ≤ st.pq.length + es.length
  | [], st => ⟨rfl, Nat.le_of_eq (by simp)⟩
  | e :: es, st => by
    obtain ⟨h1, h2⟩ := relaxOneV_shape u d st e
    obtain ⟨ih1, ih2⟩ := foldl_relaxV_shape u d es (relaxOneV u d st e)
    rw [List.foldl_cons]
    refine ⟨ih1.trans h1, ?_⟩
    simp only [List.length_cons]
    omega

theorem adjOfV_not_key {g : GraphV} {u : VKey} (h : u ∉ keysV g) : adjOfV g u = [] := by
  simp only [adjOfV, alookupV]
  rw [List.find?_eq_none.mpr]
  · rfl
  · intro p hp hbeq
    simp only [beq_iff_eq] at hbeq
    exact h (hbeq ▸ List.mem_map_of_mem Prod.fst hp)

theorem sum_filter_vis_not_memV {f : VKey → ℕ} (l vis : List VKey) (u : VKey)
    (hu : u ∉ l) :
    ((l.filter (fun x => decide (x ∉ vis ++ [u]))).map f).sum =
      ((l.filter (fun x => decide (x ∉ vis))).map f).sum := by
  congr 1
  congr 1
  apply List.filter_congr
  intro x hx
  have hxu : x ≠ u := fun hh => hu (hh ▸ hx)
  apply decide_eq_decide.mpr
  simp [List.mem_append, hxu]

theorem sum_filter_vis_memV (f : VKey → ℕ) :
    ∀ (l : List VKey), l.Nodup → ∀ (vis : List VKey) (u : VKey), u ∉ vis → u ∈ l →
    ((l.filter (fun x => decide (x ∉ vis ++ [u]))).map f).sum + f u =
      ((l.filter (fun x => decide (x ∉ vis))).map f).sum
  | [], _, vis, u => by simp
  | a :: l, hnd, vis, u => by
    intro hvis hmem
    have hndl : l.Nodup := hnd.of_cons
    rcases List.mem_cons.mp hmem with rfl | hmem
    · have hul : u ∉ l := (List.nodup_cons.mp hnd).1
      have e1 : List.filter (fun x => decide (x ∉ vis ++ [u])) (u :: l) =
          List.filter (fun x => decide (x ∉ vis ++ [u])) l :=
        List.filter_cons_of_neg (by simp)
      have e2 : List.filter (fun x => decide (x ∉ vis)) (u :: l) =
          u :: List.filter (fun x => decide (x ∉ vis)) l :=
        List.filter_cons_of_pos (by simpa using hvis)
      rw [e1, e2, List.map_cons, List.sum_cons, sum_filter_vis_not_memV l vis u hul]
      ring
    · have hau : a ≠ u := fun hh => (List.nodup_cons.mp hnd).1 (hh ▸ hmem)
      have hcond : (decide (a ∉ vis ++ [u])) = (decide (a ∉ vis)) := by
        apply decide_eq_decide.mpr
        simp [List.mem_append, hau]
      have ih := sum_filter_vis_memV f l hndl vis u hvis hmem
      cases hd : decide (a ∉ vis) with
      | false =>
        have e1 : List.filter (fun x => decide (x ∉ vis ++ [u])) (a :: l) =
            List.filter (fun x => decide (x ∉ vis ++ [u])) l :=
          List.filter_cons_of_neg (by rw [hcond, hd]; exact Bool.false_ne_true)
        have e2 : List.filter (fun x => decide (x ∉ vis)) (a :: l) =
            List.filter (fun x => decide (x ∉ vis)) l :=
          List.filter_cons_of_neg (by rw [hd]; exact Bool.false_ne_true)
        rw [e1, e2]
        exact ih
      | true =>
        have e1 : List.filter (fun x => decide (x ∉ vis ++ [u])) (a :: l) =
            a :: List.filter (fun x => decide (x ∉ vis ++ [u])) l :=
          List.filter_cons_of_pos (by rw [hcond, hd])
        have e2 : List.filter (fun x => decide (x ∉ vis)) (a :: l) =
            a :: List.filter (fun x => decide (x ∉ vis)) l :=
          List.filter_cons_of_pos (by rw [hd])
        rw [e1, e2, List.map_cons, List.sum_cons, List.map_cons, List.sum_cons]
        omega

theorem dijkstraStepV_potential {g : GraphV} {st : DijkstraStateV} (hne : st.pq ≠ []) :
    potentialV g (dijkstraStepV g st) < potentialV g st := by
  cases hpop : popMinV st.pq with
  | none => exact absurd (popMinV_eq_none.mp hpop) hne
  | some pr =>
    obtain ⟨⟨d, u⟩, rest⟩ := pr
    have hlen : st.pq.length = rest.length + 1 := by
      simpa using (popMinV_perm hpop).length_eq
    have hstep : dijkstraStepV g st =
        if u ∈ st.visited then { st with pq := rest }
        else processVertexV g u d { st with pq := rest } := by
      unfold dijkstraStepV
      rw [hpop]
    by_cases hu : u ∈ st.visited
    · rw [hstep, if_pos hu]
      simp only [potentialV]
      omega
    · rw [hstep, if_neg hu]
      have hproc : processVertexV g u d { st with pq := rest } =
          (adjOfV g u).foldl (relaxOneV u d)
            { st with pq := rest, visited := st.visited ++ [u] } := rfl
      rw [hproc]
      obtain ⟨hvis, hpq⟩ := foldl_relaxV_shape u d (adjOfV g u)
        { st with pq := rest, visited := st.visited ++ [u] }
      simp only [potentialV, hvis]
      have hpq' : ((adjOfV g u).foldl (relaxOneV u d)
          { st with pq := rest, visited := st.visited ++ [u] }).pq.length ≤
          rest.length + (adjOfV g u).length := hpq
      by_cases hk : u ∈ keysV g
      · have hsum : ((((keysV g).dedup.filter
              (fun x => decide (x ∉ st.visited ++ [u]))).map
              (fun x => 1 + (adjOfV g x).length)).sum) + (1 + (adjOfV g u).length) =
            (((keysV g).dedup.filter (fun x => decide (x ∉ st.visited))).map
              (fun x => 1 + (adjOfV g x).length)).sum :=
          sum_filter_vis_memV (fun x => 1 + (adjOfV g x).length)
            (keysV g).dedup (List.nodup_dedup _) st.visited u hu (List.mem_dedup.mpr hk)
        omega
      · have hadj0 : (adjOfV g u).length = 0 := by rw [adjOfV_not_key hk]; rfl
        have hsum := sum_filter_vis_not_memV (f := fun x => 1 + (adjOfV g x).length)
          (keysV g).dedup st.visited u (fun hh => hk (List.mem_dedup.mp hh))
        omega

theorem dijkstraLoopV_drains {g : GraphV} :
    ∀ (fuel : ℕ) (st : DijkstraStateV), potentialV g st ≤ fuel →
    (dijkstraLoopV g fuel st).pq = []
  | 0, st => by
    intro hpot
    have hlen : st.pq.length = 0 := by
      have : st.pq.length ≤ potentialV g st := Nat.le_add_right _ _
      omega
    exact List.length_eq_zero.mp hlen
  | fuel + 1, st => by
    intro hpot
    by_cases hne : st.pq = []
    · rw [dijkstraLoopV, if_pos hne]
      exact hne
    · rw [dijkstraLoopV, if_neg hne]
      have hdec := dijkstraStepV_potential (g := g) hne
      exact dijkstraLoopV_drains fuel (dijkstraStepV g st) (by omega)

theorem initStateV_potential (g : GraphV) (src : VKey) :
    potentialV g (initStateV g src) = dijkstraFuelV g := by
  simp only [potentialV, initStateV, dijkstraFuelV]
  have hfil : (keysV g).dedup.filter (fun u => decide (u ∉ ([] : List VKey))) =
      (keysV g).dedup :=
    List.filter_eq_self.mpr (fun x _ => by simp)
  rw [hfil]
  rfl

/-- The fuel of the real-weighted Dijkstra run drains the queue on every
input, with no non-negativity hypothesis: the Python loop it embeds
terminates unconditionally. -/
theorem finalStateV_pq (g : GraphV) (src : VKey) : (finalStateV g src).pq = [] :=
  dijkstraLoopV_drains (dijkstraFuelV g) (initStateV g src)
    (le_of_eq (initStateV_potential g src))

theorem no_walkV_of_no_out {g : GraphV} {s t : VKey} {c : ℝ}
    (hadj : adjOfV g s = []) (hw : WalkV g s t c) : t = s := by
  cases hw with
  | nil => rfl
  | cons he _ =>
    rw [hadj] at he
    exact absurd he (List.not_mem_nil _)

theorem minByAuxV_mem (f : ℕ → WithTop ℝ) :
    ∀ (best : ℕ) (l : List ℕ), minByAuxV f best l ∈ best :: l
  | best, [] => List.mem_singleton_self best
  | best, x :: xs => by
    simp only [minByAuxV]
    by_cases h : f x < f best
    · rw [if_pos h]
      rcases List.mem_cons.mp (minByAuxV_mem f x xs) with h' | h'
      · rw [h']
        exact List.mem_cons_of_mem _ (List.mem_cons_self _ _)
      · exact List.mem_cons_of_mem _ (List.mem_cons_of_mem _ h')
    · rw [if_neg h]
      rcases List.mem_cons.mp (minByAuxV_mem f best xs) with h' | h'
      · rw [h']
        exact List.mem_cons_self _ _
      · exact List.mem_cons_of_mem _ (List.mem_cons_of_mem _ h')

theorem optLoop_cons (g : GraphV) (fuel : ℕ) (t : ℕ) (rest : List ℕ) (current : VKey)
    (path : List ℕ) (total : WithTop ℝ) :
    optLoop g (fuel + 1) (t :: rest) current path total =
      optLoop g fuel
        ((t :: rest).erase
          (minByAuxV (fun v => distOfV (dijkstraV g current).1 (some v)) t rest))
        (some (minByAuxV (fun v => distOfV (dijkstraV g current).1 (some v)) t rest))
        (path ++ [minByAuxV (fun v => distOfV (dijkstraV g current).1 (some v)) t rest])
        (total + (((dijkstraV g current).1
          (some (minByAuxV (fun v => distOfV (dijkstraV g current).1 (some v)) t rest))).getD
            0)) :=
  rfl

theorem optLoop_mem (g : GraphV) :
    ∀ (fuel : ℕ) (remaining : List ℕ) (current : VKey) (path : List ℕ)
      (total : WithTop ℝ) (t : ℕ),
    remaining.length ≤ fuel → (t ∈ remaining ∨ t ∈ path) →
    t ∈ (optLoop g fuel remaining current path total).1
  | fuel, [], current, path, total, t => by
    intro _ hmem
    rcases hmem with hmem | hmem
    · exact absurd hmem (List.not_mem_nil t)
    · cases fuel <;> exact hmem
  | 0, r :: rest, current, path, total, t => by
    intro hlen _
    simp at hlen
  | fuel + 1, r :: rest, current, path, total, t => by
    intro hlen hmem
    rw [optLoop_cons]
    set next := minByAuxV (fun v => distOfV (dijkstraV g current).1 (some v)) r rest
      with hnext
    have hnmem : next ∈ r :: rest := minByAuxV_mem _ r rest
    have hlen' : ((r :: rest).erase next).length ≤ fuel := by
      rw [List.length_erase_of_mem hnmem]
      simpa using Nat.le_of_succ_le_succ (by simpa using hlen)
    rcases hmem with hmem | hmem
    · by_cases ht : t = next
      · exact optLoop_mem g fuel _ (some next) (path ++ [next]) _ t hlen'
          (Or.inr (List.mem_append_right _ (ht ▸ List.mem_singleton_self _)))
      · exact optLoop_mem g fuel _ (some next) (path ++ [next]) _ t hlen'
          (Or.inl ((List.mem_erase_of_ne ht).mpr hmem))
    · exact optLoop_mem g fuel _ (some next) (path ++ [next]) _ t hlen'
        (Or.inr (List.mem_append_left _ hmem))

/-- In the integer-source branch (`user_location = None`) the route
computation of `compute_optimal_route` always returns a route, and the
returned path contains every distinct node id — for every source id,
reachable or not. -/
theorem compute_optimal_route_none_route (n0 : NodeR) (rest0 : List NodeR)
    (ps : ℕ → Option ℝ) (snid : Option ℕ) (α : ℝ) (m : ℕ)
    (hm : m ∈ ((n0 :: rest0).map (fun n => n.id)).dedup) :
    ∃ p c, compute_optimal_route (n0 :: rest0) ps snid none α =
      OptRouteOutput.route p c ∧ m ∈ p := by
  refine ⟨_, _, rfl, ?_⟩
  exact optLoop_mem _ _ _ _ _ _ m (le_refl _) (Or.inl hm)

/-- With `source_node_id = 99` outside the node set, every node of the
graph `compute_optimal_route` builds is walk-unreachable from the source
(the source has no outgoing edges), yet no error is raised: a route is
returned whose path still contains the unreachable node — on
`compute_optimal_route` itself, the behaviour the original claim rules
out. -/
theorem optimal_route_unreachable_demo :
    (∀ c : ℝ, ¬ WalkV (injectV (build_priority_graph [nodeA] (fun _ => none) (1 / 2)))
        (some 99) (some 1) c) ∧
    (∃ p c, compute_optimal_route [nodeA] (fun _ => none) (some 99) none (1 / 2) =
        OptRouteOutput.route p c ∧ 1 ∈ p) := by
  constructor
  · intro c hw
    have hadj : adjOfV (injectV (build_priority_graph [nodeA] (fun _ => none) (1 / 2)))
        (some 99) = [] := rfl
    have h := no_walkV_of_no_out hadj hw
    simp at h
  · exact compute_optimal_route_none_route nodeA [] (fun _ => none) (some 99) (1 / 2) 1
      (by simp [nodeA])

/-- The segment reconstructed after running `dijkstra` from `cur` towards a
reachable target `t` starts at `cur`, ends at `t`, and never repeats a
vertex consecutively. -/
theorem segment_spec {g : Graph} (hg : NonnegG g) {cur t : ℕ}
    (hfin : distOf (dijkstra g cur).1 t ≠ ⊤) :
    (reconstruct_path (dijkstra g cur).2 t (dijkstraFuel g)).head? = some cur ∧
    (reconstruct_path (dijkstra g cur).2 t (dijkstraFuel g)).getLast? = some t ∧
    List.Chain' (fun a b => a ≠ b)
      (reconstruct_path (dijkstra g cur).2 t (dijkstraFuel g)) := by
  obtain ⟨hInv, _⟩ := @finalState_spec g cur hg
  have hfin' : distOf (finalState g cur).dist t ≠ ⊤ := hfin
  obtain ⟨c, hc⟩ := distOf_ne_top hfin'
  have htvis : t ∈ (finalState g cur).visited := final_visited hg hfin'
  have hfuel : (finalState g cur).visited.indexOf t < dijkstraFuel g :=
    lt_of_lt_of_le (List.indexOf_lt_length.mpr htvis) (visited_length_le hInv)
  obtain ⟨hh, hl, hch, -⟩ := final_chain hg _ t c hc rfl (dijkstraFuel g) hfuel
  refine ⟨?_, ?_, ?_⟩
  · rw [reconstruct_path, List.head?_reverse]
    exact hl
  · rw [reconstruct_path, List.getLast?_reverse]
    exact hh
  · rw [reconstruct_path, List.chain'_reverse]
    exact List.Chain'.imp (fun a b h => Ne.symm h) hch

/-- Appending the tail of a well-formed segment (head = the path's last
vertex) preserves the route-path invariants. -/
theorem path_append_spec {path segment : List ℕ} {current nearest : ℕ}
    (hlast : path.getLast? = some current)
    (hchain : List.Chain' (fun a b => a ≠ b) path)
    (hsh : segment.head? = some current) (hsl : segment.getLast? = some nearest)
    (hsc : List.Chain' (fun a b => a ≠ b) segment) :
    (path ++ segment.tail).getLast? = some nearest ∧
    List.Chain' (fun a b => a ≠ b) (path ++ segment.tail) ∧
    (path ++ segment.tail).head? = path.head? := by
  have hpne : path ≠ [] := fun hh => by rw [hh] at hlast; exact absurd hlast (by simp)
  cases segment with
  | nil => exact absurd hsh (by simp)
  | cons s0 stail =>
    have hs0 : s0 = current := by simpa using hsh
    obtain ⟨hlink, htail⟩ := List.chain'_cons'.mp hsc
    cases stail with
    | nil =>
      have hs0n : s0 = nearest := by simpa using hsl
      simp only [List.tail_cons, List.append_nil]
      refine ⟨?_, hchain, trivial⟩
      rw [hlast, ← hs0, hs0n]
    | cons s1 st2 =>
      have hlast2 : (s1 :: st2).getLast? = some nearest := by
        rw [← getLast?_cons_cons s0 s1 st2]
        exact hsl
      simp only [List.tail_cons]
      refine ⟨?_, ?_, ?_⟩
      · rw [List.getLast?_append_of_ne_nil path (by simp)]
        exact hlast2
      · apply List.Chain'.append hchain htail
        intro x hx y hy
        have hx' : current = x := by
          rw [hlast] at hx
          simpa using hx
        have hy' : s1 = y := by
          simpa using hy
        rw [← hx', ← hy', ← hs0]
        exact hlink s1 rfl
      · cases path with
        | nil => exact absurd rfl hpne
        | cons p0 ps => rfl

/-- The structural invariants of the greedy loop when every selected target
is reachable: the accumulated path never repeats a vertex consecutively and
its first vertex is the original source. -/
theorem routeLoop_spec (g : Graph) (hg : NonnegG g) :
    ∀ (fuel : ℕ) (remaining : List ℕ) (current : ℕ) (path : List ℕ)
      (total : WithTop ℚ),
    remaining.length ≤ fuel →
    selReachableF g fuel current remaining = true →
    (path = [] ∨ (path.getLast? = some current ∧
      List.Chain' (fun a b => a ≠ b) path)) →
    List.Chain' (fun a b => a ≠ b) (routeLoop g fuel remaining current path total).1 ∧
    (path ≠ [] → (routeLoop g fuel remaining current path total).1.head? = path.head?) ∧
    (path = [] → remaining ≠ [] →
      (routeLoop g fuel remaining current path total).1.head? = some current)
  | fuel, [], current, path, total => by
    intro _ _ hinv
    have hres : (routeLoop g fuel [] current path total).1 = path := by
      cases fuel <;> rfl
    rw [hres]
    refine ⟨?_, fun _ => rfl, fun _ hne => absurd rfl hne⟩
    rcases hinv with rfl | ⟨-, hchain⟩
    · exact List.chain'_nil
    · exact hchain
  | 0, r :: rest, current, path, total => by
    intro hlen _ _
    simp at hlen
  | fuel + 1, r :: rest, current, path, total => by
    intro hlen hsel hinv
    rw [selReachableF_cons, Bool.and_eq_true] at hsel
    obtain ⟨hfinb, hsel'⟩ := hsel
    have hfin : distOf (dijkstra g current).1
        (minByAux (fun v => distOf (dijkstra g current).1 v) r rest) ≠ ⊤ :=
      of_decide_eq_true hfinb
    obtain ⟨hsh, hsl, hsc⟩ := segment_spec hg hfin
    rw [routeLoop_cons]
    set nearest := minByAux (fun v => distOf (dijkstra g current).1 v) r rest with hnear
    set segment := reconstruct_path (dijkstra g current).2 nearest (dijkstraFuel g)
      with hsegdef
    have hsegne : segment ≠ [] := reconstruct_ne_nil _ _ _
    have hnmem : nearest ∈ r :: rest := minByAux_mem _ r rest
    have hlen' : ((r :: rest).erase nearest).length ≤ fuel := by
      rw [List.length_erase_of_mem hnmem]
      simpa using Nat.le_of_succ_le_succ (by simpa using hlen)
    rcases hinv with rfl | ⟨hlast, hchain⟩
    · have hcondF : ¬(([] : List ℕ) ≠ [] ∧ segment ≠ [] ∧
          segment.head? = ([] : List ℕ).getLast?) := fun hc => hc.1 rfl
      rw [if_neg hcondF]
      obtain ⟨ih1, ih2, -⟩ := routeLoop_spec g hg fuel ((r :: rest).erase nearest)
        nearest ([] ++ segment) _ hlen' hsel'
        (Or.inr ⟨by simpa using hsl, by simpa using hsc⟩)
      refine ⟨ih1, fun hpne => absurd rfl hpne, fun _ _ => ?_⟩
      rw [ih2 (by simpa using hsegne)]
      simpa using hsh
    · have hpne : path ≠ [] := fun hh => by
        rw [hh] at hlast
        exact absurd hlast (by simp)
      have hcondT : path ≠ [] ∧ segment ≠ [] ∧ segment.head? = path.getLast? :=
        ⟨hpne, hsegne, by rw [hsh, hlast]⟩
      rw [if_pos hcondT]
      obtain ⟨hpl, hpc, hph⟩ := path_append_spec hlast hchain hsh hsl hsc
      have hpne' : path ++ segment.tail ≠ [] := by
        intro hh
        rw [List.append_eq_nil] at hh
        exact hpne hh.1
      obtain ⟨ih1, ih2, -⟩ := routeLoop_spec g hg fuel ((r :: rest).erase nearest)
        nearest (path ++ segment.tail) _ hlen' hsel' (Or.inr ⟨hpl, hpc⟩)
      refine ⟨ih1, fun _ => ?_, fun hh => absurd hh hpne⟩
      rw [ih2 hpne', hph]

section ConcreteEvaluations

/- Lean marks `Rat.add`, `Rat.mul`, `Rat.sub` and `Rat.inv` `@[irreducible]`;
the concrete route computations below are settled by `decide`, whose
`Decidable` instances must unfold them.  Restoring the default
`semireducible` status changes no definition and no statement. -/
attribute [local semireducible] Rat.add Rat.mul Rat.sub Rat.inv

/-- C5 counterexample: in the graph
`{0: [(1,1)], 1: [(2,1),(3,1)], 2: [(1,1),(3,3)], 3: []}` (non-negative
weights, every target reachable at its selection step) with source `0` and
targets `[1, 2, 3]`, the greedy traversal returns the path
`[0, 1, 2, 1, 3]`: the requested target `1` appears twice, not exactly
once (it is revisited as an intermediate hop of the segment from `2` to
`3`). -/
theorem compute_route_revisits_target :
    NonnegG gRevisit ∧
    selReachable gRevisit 0 [1, 2, 3] = true ∧
    compute_route gRevisit 0 [1, 2, 3] =
      RouteOutput.route [0, 1, 2, 1, 3] (((4 : ℚ)) : WithTop ℚ) ∧
    List.count 1 [0, 1, 2, 1, 3] = 2 := by
  refine ⟨by decide, by decide, ?_, by decide⟩
  have h : routeLoop gRevisit 3 [1, 2, 3] 0 [] 0 =
      ([0, 1, 2, 1, 3], ((4 : ℚ) : WithTop ℚ)) := by decide
  simp [compute_route, h]

/-- C5 (amended): for every graph with non-negative weights, every source,
and every non-empty target list whose members are all reachable at the step
where they are selected, the returned path contains every requested target
(at least once — a visited target may reappear as an intermediate hop of a
later segment), starts at the source, and has no two equal consecutive
vertices. -/
theorem compute_route_visits_targets (g : Graph) (source : ℕ)
    (targets : List ℕ) (hg : NonnegG g) (hne : targets ≠ [])
    (hsel : selReachable g source targets = true) :
    ∃ p c, compute_route g source targets = RouteOutput.route p c ∧
      p.head? = some source ∧ (∀ t ∈ targets, t ∈ p) ∧
      List.Chain' (fun a b => a ≠ b) p := by
  have hempty : targets.isEmpty = false := by
    cases targets with
    | nil => exact absurd rfl hne
    | cons a l => rfl
  obtain ⟨hchain, -, hhead⟩ := routeLoop_spec g hg targets.length targets source [] 0
    (le_refl _) hsel (Or.inl rfl)
  refine ⟨(routeLoop g targets.length targets source [] 0).1,
    (routeLoop g targets.length targets source [] 0).2, ?_, ?_, ?_, hchain⟩
  · simp [compute_route, hempty]
  · exact hhead rfl hne
  · intro t ht
    exact routeLoop_mem g targets.length targets source [] 0 t (le_refl _) (Or.inl ht)

/-- C5 witness: the repository's own test graph
`{1: [(2,1),(3,4)], 2: [(3,2)], 3: []}`, source `1`, targets `[3]`. -/
theorem compute_route_visits_targets_witness :
    ∃ p c, compute_route gSmallTest 1 [3] = RouteOutput.route p c ∧
      p.head? = some 1 ∧ (∀ t ∈ [3], t ∈ p) ∧
      List.Chain' (fun a b => a ≠ b) p :=
  compute_route_visits_targets gSmallTest 1 [3] (by decide) (by decide) (by decide)

end ConcreteEvaluations

end WasteBins
